import Mathlib

/-!
Verification of the hybrid-retrieval and calibration/conformal core of the
PSC-Graph repository (scripts/retrieve_evidence.py, scripts/evaluate_retrieval.py,
scripts/calibrate_and_conformal.py), as a shallow embedding.

Numeric conventions: Python/NumPy floating point is embedded as exact
arithmetic, `ℚ` where the source only uses field operations and comparisons,
`ℝ` where the source applies `exp` or `log2`.  A NumPy/Python exception is
embedded as `Option`/`Except` (`none`/`.error` = the call raises).
-/

/-! ## Generic list helpers (NumPy reductions) -/

/-- `np.max(x)` over a 1-d array, as a fold; the source never applies it to an
empty array on the paths verified here (NumPy would raise), so `[]` is given a
junk value `0`. -/
def rowMax {α : Type} [LinearOrder α] [Zero α] : List α → α
  | [] => 0
  | x :: xs => xs.foldl max x

/-- `np.min(x)` over a 1-d array (same conventions as `rowMax`). -/
def rowMin {α : Type} [LinearOrder α] [Zero α] : List α → α
  | [] => 0
  | x :: xs => xs.foldl min x

/-- Helper for `listArgmax`: carries the running best value, its index, and the
current index, replacing the best only on a strictly larger value, exactly as
`np.argmax` keeps the first occurrence of the maximum. -/
def argmaxAux {α : Type} [LinearOrder α] : List α → α → ℕ → ℕ → ℕ
  | [], _, bi, _ => bi
  | x :: xs, bv, bi, ci => if bv < x then argmaxAux xs x ci (ci + 1) else argmaxAux xs bv bi (ci + 1)

/-- `np.argmax` over a 1-d array: index of the first maximal entry (junk `0`
on `[]`, where NumPy raises; unreachable under the row-nonemptiness
hypotheses used below). -/
def listArgmax {α : Type} [LinearOrder α] : List α → ℕ
  | [] => 0
  | x :: xs => argmaxAux xs x 0 1

/-! ## ConformalPredictor (calibrate_and_conformal.py, lines 132-213)

The predictor's mutable state is the single field `quantile : Option ℚ`
(`None` before `calibrate`, set by `calibrate`).  `alpha` is the constructor
parameter. -/

/-- Nonconformity scores `1 - probs[range(len(labels)), labels]` of
`ConformalPredictor.calibrate` (line 159). -/
def nonconformityScores (probs : List (List ℚ)) (labels : List ℕ) : List ℚ :=
  List.zipWith (fun row lab => 1 - row.getD lab 0) probs labels

/-- Value of `np.quantile(l, q)` (default linear interpolation) on a nonempty
array: sort ascending, take the virtual index `q * (n - 1)`, and interpolate
linearly between the two neighbouring order statistics. -/
def npQuantileVal (l : List ℚ) (q : ℚ) : ℚ :=
  let s := l.insertionSort (· ≤ ·)
  let n := s.length
  let v : ℚ := q * ((n : ℚ) - 1)
  let i : ℕ := (Int.floor v).toNat
  let g : ℚ := v - (i : ℚ)
  if i + 1 < n then s.getD i 0 + g * (s.getD (i + 1) 0 - s.getD i 0) else s.getD (n - 1) 0

/-- `np.quantile` with the raise on an empty array made explicit: NumPy fails
with `IndexError: cannot do a non-empty take from an empty axes.` when the
input has size zero, embedded here as `none`. -/
def npQuantile (l : List ℚ) (q : ℚ) : Option ℚ :=
  if l = [] then none else some (npQuantileVal l q)

/-- The quantile level `q_level = min(1.0, (1 - self.alpha) + 0.08)` of
`ConformalPredictor.calibrate` (line 166): `1 - alpha` plus a fixed 8% buffer,
capped at 1. -/
def qLevel (alpha : ℚ) : ℚ := min 1 ((1 - alpha) + 8 / 100)

/-- `ConformalPredictor.calibrate` (lines 147-167): computes the nonconformity
scores and stores `np.quantile(scores, q_level)` in `self.quantile`.  Returns
the new `quantile` state; `none` means the call raised (inside `np.quantile`,
on an empty calibration set). -/
def ConformalPredictor.calibrate (alpha : ℚ) (probs : List (List ℚ)) (labels : List ℕ) :
    Option ℚ :=
  npQuantile (nonconformityScores probs labels) (qLevel alpha)

/-- One row of `ConformalPredictor.predict_set` (line 187): the class indices
`i` of the row with `1 - p_i <= quantile`, in increasing order of `i`, as the
list comprehension over `enumerate(prob)` produces them. -/
def predSetRow (q : ℚ) (prob : List ℚ) : List ℕ :=
  (List.range prob.length).filter (fun i => decide (1 - prob.getD i 0 ≤ q))

/-- `ConformalPredictor.predict_set` (lines 169-190): raises `ValueError` when
`self.quantile is None` (embedded as `.error`), otherwise returns the per-row
prediction sets. -/
def ConformalPredictor.predictSet (quantile : Option ℚ) (probs : List (List ℚ)) :
    Except String (List (List ℕ)) :=
  match quantile with
  | none => Except.error "please call calibrate() first"
  | some q => Except.ok (probs.map (predSetRow q))

/-! ## RetrievalEvaluator.recall_at_k and normalize_scores -/

/-- `RetrievalEvaluator.recall_at_k` (evaluate_retrieval.py, lines 36-52):
`0.0` on an empty relevant set, otherwise `|set(retrieved[:k]) ∩ relevant| / |relevant|`. -/
def RetrievalEvaluator.recallAtK (retrieved : List String) (relevant : Finset String) (k : ℕ) :
    ℚ :=
  if relevant = ∅ then 0
  else (((retrieved.take k).toFinset ∩ relevant).card : ℚ) / (relevant.card : ℚ)

/-- `normalize_scores` (retrieve_evidence.py, lines 170-180): min-max scaling
over the candidate list; empty input gives the empty dict, an all-equal score
range gives every candidate the uniform score `1.0`.  The returned Python dict
is embedded as the association list with the same key order (candidate doc_ids
are pairwise distinct wherever this is called). -/
def normalizeScores (results : List (String × ℚ)) : List (String × ℚ) :=
  match results with
  | [] => []
  | _ :: _ =>
    let maxScore := rowMax (results.map Prod.snd)
    let minScore := rowMin (results.map Prod.snd)
    if maxScore = minScore then results.map (fun p => (p.1, 1))
    else results.map (fun p => (p.1, (p.2 - minScore) / (maxScore - minScore)))

/-- `d.get(key, default)` on an embedded Python dict. -/
def dictGetD (d : List (String × ℚ)) (key : String) (default : ℚ) : ℚ :=
  match d.find? (fun p => p.1 == key) with
  | some p => p.2
  | none => default

/-! ## Helper lemmas -/

theorem foldl_max_const {c : ℚ} : ∀ {xs : List ℚ}, (∀ x ∈ xs, x = c) → xs.foldl max c = c := by
  intro xs
  induction xs with
  | nil => intro _; rfl
  | cons y ys ih =>
    intro h
    have hy : y = c := h y (by simp)
    subst hy
    simpa [max_self] using ih (fun z hz => h z (by simp [hz]))

theorem foldl_min_const {c : ℚ} : ∀ {xs : List ℚ}, (∀ x ∈ xs, x = c) → xs.foldl min c = c := by
  intro xs
  induction xs with
  | nil => intro _; rfl
  | cons y ys ih =>
    intro h
    have hy : y = c := h y (by simp)
    subst hy
    simpa [min_self] using ih (fun z hz => h z (by simp [hz]))

theorem rowMax_cons_const {c x : ℚ} {xs : List ℚ} (hx : x = c) (hxs : ∀ y ∈ xs, y = c) :
    rowMax (x :: xs) = c := by
  subst hx
  simpa [rowMax] using foldl_max_const hxs

theorem rowMin_cons_const {c x : ℚ} {xs : List ℚ} (hx : x = c) (hxs : ∀ y ∈ xs, y = c) :
    rowMin (x :: xs) = c := by
  subst hx
  simpa [rowMin] using foldl_min_const hxs

/-! ## Claim theorems: C2, C7, C9 -/

/-- C2: for every non-empty calibration set and every `alpha ∈ (0,1)`,
`ConformalPredictor.calibrate` sets the internal quantile to the empirical
quantile of the nonconformity scores `1 - P(true_label)` taken at the level
`q_level = min(1, (1-alpha) + 0.08)`, and this level always satisfies
`1 - alpha ≤ q_level ≤ 1`: the finite-sample buffer never rounds the level
below the nominal `1 - alpha`. -/
theorem C2_calibrate_quantile_level (alpha : ℚ) (probs : List (List ℚ)) (labels : List ℕ)
    (h1 : 0 < alpha) (h2 : alpha < 1) (h3 : probs ≠ []) (h4 : labels.length = probs.length) :
    ConformalPredictor.calibrate alpha probs labels
      = some (npQuantileVal (nonconformityScores probs labels) (qLevel alpha))
    ∧ 1 - alpha ≤ qLevel alpha ∧ qLevel alpha ≤ 1 := by
  refine ⟨?_, ?_, min_le_left _ _⟩
  · have hlen : (nonconformityScores probs labels).length = probs.length := by
      simp [nonconformityScores, List.length_zipWith, h4]
    have hne : nonconformityScores probs labels ≠ [] := by
      intro h
      apply h3
      have hp : probs.length = 0 := by rw [← hlen, h]; rfl
      exact List.length_eq_zero.mp hp
    simp [ConformalPredictor.calibrate, npQuantile, hne]
  · apply le_min
    · linarith
    · linarith

/-- Witness for C2 at a concrete one-example calibration set. -/
theorem C2_calibrate_quantile_level_witness :
    ConformalPredictor.calibrate (1/10) [[1/2, 1/2]] [0]
      = some (npQuantileVal (nonconformityScores [[1/2, 1/2]] [0]) (qLevel (1/10)))
    ∧ 1 - (1/10 : ℚ) ≤ qLevel (1/10) ∧ qLevel (1/10) ≤ 1 :=
  C2_calibrate_quantile_level (1/10) [[1/2, 1/2]] [0] (by norm_num) (by norm_num)
    (by simp) rfl

/-- C9: `ConformalPredictor.predict_set` raises (`ValueError`) when the
quantile state is still `None`, and after calibration it returns, for every
example row, exactly the class indices whose nonconformity `1 - P(class)` does
not exceed the fitted quantile. -/
theorem C9_predict_set_gate_and_contents (q : ℚ) (probs : List (List ℚ)) (i j : ℕ) :
    (∃ msg, ConformalPredictor.predictSet none probs = Except.error msg)
    ∧ ConformalPredictor.predictSet (some q) probs = Except.ok (probs.map (predSetRow q))
    ∧ (j ∈ predSetRow q (probs.getD i [])
        ↔ j < (probs.getD i []).length ∧ 1 - (probs.getD i []).getD j 0 ≤ q) := by
  refine ⟨⟨_, rfl⟩, rfl, ?_⟩
  simp [predSetRow, List.mem_filter, List.mem_range]

/-- C7 (amended): recall over an empty relevant set returns `0.0` and all-equal
min-max normalization assigns the uniform score `1.0`, but
`ConformalPredictor.calibrate` on zero calibration examples raises (inside
`np.quantile`, which fails on an empty array) instead of recovering. -/
theorem C7_degenerate_inputs :
    (∀ (retrieved : List String) (k : ℕ), RetrievalEvaluator.recallAtK retrieved ∅ k = 0)
    ∧ (∀ (results : List (String × ℚ)) (c : ℚ), results ≠ [] → (∀ p ∈ results, p.2 = c) →
        normalizeScores results = results.map (fun p => (p.1, 1)))
    ∧ (∀ alpha : ℚ, ConformalPredictor.calibrate alpha [] [] = none) := by
  refine ⟨fun retrieved k => by simp [RetrievalEvaluator.recallAtK], ?_, fun alpha => rfl⟩
  intro results c hne hc
  match results, hne with
  | p :: rest, _ =>
    have htail : ∀ y ∈ rest.map Prod.snd, y = c := by
      intro y hy
      simp only [List.mem_map] at hy
      obtain ⟨a, ha, rfl⟩ := hy
      exact hc a (by simp [ha])
    have hmax : rowMax (p.2 :: rest.map Prod.snd) = c :=
      rowMax_cons_const (hc p (by simp)) htail
    have hmin : rowMin (p.2 :: rest.map Prod.snd) = c :=
      rowMin_cons_const (hc p (by simp)) htail
    simp [normalizeScores, hmax, hmin]

/-- Witness for C7 at concrete inputs. -/
theorem C7_degenerate_inputs_witness :
    RetrievalEvaluator.recallAtK ["a"] ∅ 1 = 0
    ∧ normalizeScores [("a", 2), ("b", 2)] = [("a", 1), ("b", 1)]
    ∧ ConformalPredictor.calibrate (1/10) [] [] = none :=
  ⟨C7_degenerate_inputs.1 ["a"] 1,
   C7_degenerate_inputs.2.1 [("a", 2), ("b", 2)] 2 (by simp) (by simp),
   C7_degenerate_inputs.2.2 (1/10)⟩

/-- Counterexample to C7 as stated: on zero calibration examples
`ConformalPredictor.calibrate` does not return a well-defined fallback — the
`np.quantile` call raises on the empty score array (embedded as `none`). -/
theorem C7_zero_examples_raises : ConformalPredictor.calibrate (1/10) [] [] = none := rfl

/-! ## CalibrationMetrics (calibrate_and_conformal.py, lines 216-315)

Both metric functions share the same front-end computation (lines 236-242 and
274-279 are identical), embedded once below. -/

/-- `confidences = np.max(probs, axis=1)` (lines 236, 274). -/
def confidences (probs : List (List ℚ)) : List ℚ := probs.map rowMax

/-- `predictions = np.argmax(probs, axis=1)` (lines 237, 275). -/
def predictionsOf (probs : List (List ℚ)) : List ℕ := probs.map listArgmax

/-- `accuracies = (predictions == labels)` (lines 238, 276). -/
def accuraciesOf (probs : List (List ℚ)) (labels : List ℕ) : List Bool :=
  List.zipWith (fun p l => decide (p = l)) (predictionsOf probs) labels

/-- Digitized bin index `np.digitize(c, np.linspace(0, 1, n_bins + 1)) - 1`
(lines 241-242, 278-279): `np.digitize(c, bins)` returns the number of bin
edges `j / n_bins` (for `j = 0 .. n_bins`) that are `≤ c`.  A confidence of
exactly `1.0` therefore gets index `n_bins`, one past the last bin of the
accumulation loops. -/
def binIdx (nBins : ℕ) (c : ℚ) : ℤ :=
  (((List.range (nBins + 1)).countP (fun (j : ℕ) => decide ((j : ℚ) / (nBins : ℚ) ≤ c))) : ℤ) - 1

/-- The per-example pairs `(confidence, accuracy)`; the masks `bin_indices == i`
of both metric functions select from these. -/
def binData (probs : List (List ℚ)) (labels : List ℕ) : List (ℚ × Bool) :=
  (confidences probs).zip (accuraciesOf probs labels)

/-- The examples falling in bin `b` (mask `bin_indices == i`, lines 246, 283). -/
def binSel (probs : List (List ℚ)) (labels : List ℕ) (nBins : ℕ) (b : ℕ) : List (ℚ × Bool) :=
  (binData probs labels).filter (fun ca => decide (binIdx nBins ca.1 = (b : ℤ)))

/-- `np.mean` of a 1-d array (junk value `0` on `[]`, where NumPy yields `nan`;
both callers guard with `np.sum(mask) > 0`). -/
def meanQ (l : List ℚ) : ℚ := l.sum / (l.length : ℚ)

/-- Mean confidence of a bin: `np.mean(confidences[mask])` (lines 248, 285). -/
def binConfidence (sel : List (ℚ × Bool)) : ℚ := meanQ (sel.map Prod.fst)

/-- Mean accuracy of a bin: `np.mean(accuracies[mask])`, booleans counting as
0/1 (lines 249, 286). -/
def binAccuracy (sel : List (ℚ × Bool)) : ℚ :=
  meanQ (sel.map (fun ca => if ca.2 then (1 : ℚ) else 0))

/-- `CalibrationMetrics.expected_calibration_error` (lines 219-254): for each
non-empty bin accumulate `bin_weight * |bin_confidence - bin_accuracy|`. -/
def CalibrationMetrics.expectedCalibrationError
    (probs : List (List ℚ)) (labels : List ℕ) (nBins : ℕ) : ℚ :=
  ((List.range nBins).map (fun b =>
    let sel := binSel probs labels nBins b
    if 0 < sel.length then
      ((sel.length : ℚ) / (((confidences probs).length : ℕ) : ℚ))
        * |binConfidence sel - binAccuracy sel|
    else 0)).sum

/-- One entry of `bin_stats` in `plot_reliability_diagram` (lines 289-295). -/
structure BinStat where
  binId : ℕ
  confidence : ℚ
  accuracy : ℚ
  count : ℕ
  gap : ℚ

/-- The dictionary returned by `plot_reliability_diagram` (lines 303-308). -/
structure ReliabilityResult where
  ece : ℚ
  bins : List BinStat
  nSamples : ℕ
  nBins : ℕ

/-- `CalibrationMetrics.plot_reliability_diagram` (lines 256-315), without the
optional JSON persistence side channel: collects per-bin statistics for the
non-empty bins and recomputes the ECE from them as `sum(count / n * gap)`
(lines 298-301). -/
def CalibrationMetrics.plotReliabilityDiagram
    (probs : List (List ℚ)) (labels : List ℕ) (nBins : ℕ) : ReliabilityResult :=
  let stats := (List.range nBins).filterMap (fun b =>
    let sel := binSel probs labels nBins b
    if 0 < sel.length then
      some ⟨b, binConfidence sel, binAccuracy sel, sel.length,
            |binConfidence sel - binAccuracy sel|⟩
    else none)
  ⟨(stats.map (fun s => ((s.count : ℚ) / (((confidences probs).length : ℕ) : ℚ)) * s.gap)).sum,
   stats, (confidences probs).length, nBins⟩

/-- Sum of the per-bin weights `np.sum(mask) / len(confidences)` accumulated by
the loop of `expected_calibration_error` (line 250). -/
def binWeightSum (probs : List (List ℚ)) (labels : List ℕ) (nBins : ℕ) : ℚ :=
  ((List.range nBins).map (fun b =>
    ((binSel probs labels nBins b).length : ℚ) / (((confidences probs).length : ℕ) : ℚ))).sum

/-! ## Helper lemmas for C5 and C10 -/

theorem list_sum_filterMap_stats (L : List ℕ) (g : ℕ → Option BinStat) (h : BinStat → ℚ)
    (t : ℕ → ℚ) (hgt : ∀ b ∈ L, (match g b with | some s => h s | none => 0) = t b) :
    ((L.filterMap g).map h).sum = (L.map t).sum := by
  induction L with
  | nil => rfl
  | cons a L ih =>
    have ha := hgt a (by simp)
    have htail := ih (fun b hb => hgt b (by simp [hb]))
    rw [List.filterMap_cons]
    cases hga : g a with
    | none =>
      rw [hga] at ha
      simp only [List.map_cons, List.sum_cons, ← ha, htail, zero_add]
    | some s =>
      rw [hga] at ha
      simp only [List.map_cons, List.sum_cons, ← ha, htail]

theorem sum_indicator_range (z : ℤ) (n : ℕ) :
    ((List.range n).map (fun (b : ℕ) => if z = (b : ℤ) then (1 : ℕ) else 0)).sum
      = if 0 ≤ z ∧ z < (n : ℤ) then 1 else 0 := by
  induction n with
  | zero =>
    simp only [List.range_zero, List.map_nil, List.sum_nil, Nat.cast_zero]
    split_ifs with h <;> omega
  | succ n ih =>
    rw [List.range_succ, List.map_append, List.sum_append, ih]
    simp only [List.map_cons, List.map_nil, List.sum_cons, List.sum_nil]
    split_ifs <;> push_cast at * <;> omega

theorem list_sum_map_add (L : List ℕ) (f g : ℕ → ℕ) :
    (L.map (fun b => f b + g b)).sum = (L.map f).sum + (L.map g).sum := by
  induction L with
  | nil => rfl
  | cons a L ih =>
    simp only [List.map_cons, List.sum_cons, ih]
    omega

theorem sum_binCounts_le (nBins : ℕ) (zl : List (ℚ × Bool)) :
    ((List.range nBins).map (fun (b : ℕ) =>
      (zl.filter (fun ca => decide (binIdx nBins ca.1 = (b : ℤ)))).length)).sum
      ≤ zl.countP (fun ca =>
          decide (0 ≤ binIdx nBins ca.1 ∧ binIdx nBins ca.1 < (nBins : ℤ))) := by
  induction zl with
  | nil => simp
  | cons c t ih =>
    have hpt : ∀ b ∈ List.range nBins,
        ((c :: t).filter (fun ca => decide (binIdx nBins ca.1 = (b : ℤ)))).length
          = (if binIdx nBins c.1 = (b : ℤ) then 1 else 0)
            + (t.filter (fun ca => decide (binIdx nBins ca.1 = (b : ℤ)))).length := by
      intro b _
      by_cases h : binIdx nBins c.1 = (b : ℤ) <;>
        simp [List.filter_cons, h, Nat.add_comm]
    rw [List.map_congr_left hpt, list_sum_map_add, sum_indicator_range,
      List.countP_cons]
    simp only [decide_eq_true_eq]
    split_ifs <;> omega

theorem list_sum_map_div (L : List ℕ) (f : ℕ → ℚ) (c : ℚ) :
    (L.map (fun b => f b / c)).sum = (L.map f).sum / c := by
  induction L with
  | nil => simp
  | cons a L ih => simp [ih, add_div]

theorem list_sum_map_natCast (L : List ℕ) (f : ℕ → ℕ) :
    (L.map (fun b => ((f b : ℕ) : ℚ))).sum = (((L.map f).sum : ℕ) : ℚ) := by
  induction L with
  | nil => simp
  | cons a L ih =>
    simp only [List.map_cons, List.sum_cons, ih]
    push_cast
    ring

/-! ## Claim theorems: C5, C10 -/

/-- C5: the `'ece'` value computed by `plot_reliability_diagram` is identical
to the value returned by `expected_calibration_error` on the same `probs`,
`labels` and `n_bins`: both accumulate `count / n * |confidence - accuracy|`
over exactly the non-empty bins. -/
theorem C5_reliability_ece_cross_check (probs : List (List ℚ)) (labels : List ℕ) (nBins : ℕ) :
    (CalibrationMetrics.plotReliabilityDiagram probs labels nBins).ece
      = CalibrationMetrics.expectedCalibrationError probs labels nBins := by
  unfold CalibrationMetrics.plotReliabilityDiagram CalibrationMetrics.expectedCalibrationError
  apply list_sum_filterMap_stats
  intro b _
  by_cases h : 0 < (binSel probs labels nBins b).length <;> simp [h]

theorem countP_le_of_fail {α : Type} (p : α → Bool) (l : List α) (x : α) (hx : x ∈ l)
    (hfx : p x = false) : l.countP p ≤ l.length - 1 := by
  have htot := List.length_eq_countP_add_countP p l
  have hpos : 0 < l.countP (fun a => decide ¬(p a = true)) :=
    List.countP_pos.mpr ⟨x, hx, by simp [hfx]⟩
  omega

/-- C10: an example whose maximum class probability is exactly `1.0` is
assigned digitized bin index `n_bins`, outside the loop over bins
`0 .. n_bins - 1`; it contributes to no bin statistic, yet stays in the
`len(confidences)` denominator, so the bin weights summed by
`expected_calibration_error` (equally the `count / n` weights of
`plot_reliability_diagram`) add up to strictly less than 1. -/
theorem C10_unit_confidence_unbinned (probs : List (List ℚ)) (labels : List ℕ)
    (nBins i : ℕ) (h1 : 1 ≤ nBins) (h2 : labels.length = probs.length)
    (h3 : i < probs.length) (h4 : rowMax (probs.getD i []) = 1) :
    binIdx nBins (rowMax (probs.getD i [])) = (nBins : ℤ)
    ∧ binWeightSum probs labels nBins < 1 := by
  have hbin1 : binIdx nBins (1 : ℚ) = (nBins : ℤ) := by
    unfold binIdx
    have hall : ∀ j ∈ List.range (nBins + 1),
        (fun (j : ℕ) => decide ((j : ℚ) / (nBins : ℚ) ≤ 1)) j = true := by
      intro j hj
      simp only [decide_eq_true_eq]
      have hnb : (0 : ℚ) < (nBins : ℚ) := by exact_mod_cast (by omega : 0 < nBins)
      rw [div_le_one hnb]
      exact_mod_cast Nat.lt_succ_iff.mp (List.mem_range.mp hj)
    rw [List.countP_eq_length.mpr hall, List.length_range]
    push_cast
    ring
  rw [List.getD_eq_getElem probs [] h3] at h4
  refine ⟨by rw [List.getD_eq_getElem probs [] h3, h4]; exact hbin1, ?_⟩
  have hconf_len : (confidences probs).length = probs.length := by simp [confidences]
  have hacc_len : (accuraciesOf probs labels).length = probs.length := by
    simp [accuraciesOf, predictionsOf, h2]
  have hz_len : (binData probs labels).length = probs.length := by
    simp [binData, List.length_zip, hconf_len, hacc_len]
  have hiz : i < (binData probs labels).length := by omega
  have h5 : i < (confidences probs).length := by omega
  have h6 : i < (accuraciesOf probs labels).length := by omega
  have hfst : ((binData probs labels)[i]).1 = 1 := by
    have hsplit : (binData probs labels)[i]
        = ((confidences probs)[i], (accuraciesOf probs labels)[i]) := by
      simp [binData, List.getElem_zip]
    rw [hsplit]
    show (confidences probs)[i] = 1
    have : (confidences probs)[i] = rowMax (probs[i]) := by
      simp [confidences, List.getElem_map]
    rw [this, h4]
  have hmem : (binData probs labels)[i] ∈ binData probs labels := List.getElem_mem hiz
  have hfail :
      (fun ca : ℚ × Bool =>
        decide (0 ≤ binIdx nBins ca.1 ∧ binIdx nBins ca.1 < (nBins : ℤ)))
        ((binData probs labels)[i]) = false := by
    simp only [hfst, hbin1, decide_eq_false_iff_not, not_and, not_lt]
    intro _
    exact le_refl _
  have hle : (binData probs labels).countP
      (fun ca : ℚ × Bool =>
        decide (0 ≤ binIdx nBins ca.1 ∧ binIdx nBins ca.1 < (nBins : ℤ)))
      ≤ probs.length - 1 := by
    have := countP_le_of_fail
      (fun ca : ℚ × Bool =>
        decide (0 ≤ binIdx nBins ca.1 ∧ binIdx nBins ca.1 < (nBins : ℤ)))
      (binData probs labels) _ hmem hfail
    omega
  have hsum' : ((List.range nBins).map
      (fun (b : ℕ) => (binSel probs labels nBins b).length)).sum
      ≤ probs.length - 1 := by
    have hsum := sum_binCounts_le nBins (binData probs labels)
    calc ((List.range nBins).map
        (fun (b : ℕ) => (binSel probs labels nBins b).length)).sum
        ≤ (binData probs labels).countP
            (fun ca : ℚ × Bool =>
              decide (0 ≤ binIdx nBins ca.1 ∧ binIdx nBins ca.1 < (nBins : ℤ))) := hsum
      _ ≤ probs.length - 1 := hle
  unfold binWeightSum
  rw [hconf_len, list_sum_map_div, list_sum_map_natCast]
  have hNpos : (0 : ℚ) < ((probs.length : ℕ) : ℚ) := by exact_mod_cast (by omega : 0 < probs.length)
  rw [div_lt_one hNpos]
  exact_mod_cast (by omega :
    ((List.range nBins).map (fun (b : ℕ) => (binSel probs labels nBins b).length)).sum
      < probs.length)

/-- Witness for C10 at a concrete two-example input with a certain prediction. -/
theorem C10_unit_confidence_unbinned_witness :
    binIdx 10 (rowMax (([[1, 0], [1/2, 1/2]] : List (List ℚ)).getD 0 [])) = (10 : ℤ)
    ∧ binWeightSum [[1, 0], [1/2, 1/2]] [0, 1] 10 < 1 :=
  C10_unit_confidence_unbinned [[1, 0], [1/2, 1/2]] [0, 1] 10 0 (by norm_num) rfl
    (by norm_num) (by norm_num [rowMax])

/-! ## TemperatureScaling (calibrate_and_conformal.py, lines 60-129)

The calibrator's state is the single float `self.temperature`; `__init__`
presets it to `1.0` and `fit` replaces it with the optimizer's result, which
the `bounds=[(0.1, 10.0)]` argument of `scipy.optimize.minimize` confines to
`[0.1, 10]`.  There is no separate fit/unfit marker. -/

/-- `TemperatureScaling._softmax` on one row (lines 125-129):
`exp(x - np.max(x)) / sum(exp(x - np.max(x)))`. -/
noncomputable def softmaxRow (xs : List ℝ) : List ℝ :=
  let m := rowMax xs
  let e := xs.map (fun x => Real.exp (x - m))
  e.map (fun y => y / e.sum)

/-- `TemperatureScaling._softmax` with `axis=-1` semantics: rowwise. -/
noncomputable def softmax (zs : List (List ℝ)) : List (List ℝ) := zs.map softmaxRow

/-- `TemperatureScaling.__init__` (lines 66-67): the fresh, never-fit
calibrator carries `self.temperature = 1.0`. -/
noncomputable def TemperatureScaling.initTemperature : ℝ := 1

/-- `TemperatureScaling.transform` (lines 113-123): returns
`softmax(logits / self.temperature)`; the body performs no fit-state check. -/
noncomputable def TemperatureScaling.transform (temperature : ℝ)
    (logits : List (List ℝ)) : List (List ℝ) :=
  softmax (logits.map (fun row => row.map (fun x => x / temperature)))

/-! ## Helper lemmas for C1 and C4 -/

theorem argmaxAux_map {α β : Type} [LinearOrder α] [LinearOrder β] {f : α → β}
    (hf : StrictMono f) :
    ∀ (xs : List α) (bv : α) (bi ci : ℕ),
      argmaxAux (xs.map f) (f bv) bi ci = argmaxAux xs bv bi ci := by
  intro xs
  induction xs with
  | nil => intro bv bi ci; rfl
  | cons x t ih =>
    intro bv bi ci
    simp only [List.map_cons, argmaxAux]
    by_cases h : bv < x
    · rw [if_pos (hf h), if_pos h, ih]
    · rw [if_neg (fun hc => h (hf.lt_iff_lt.mp hc)), if_neg h, ih]

theorem listArgmax_map {α β : Type} [LinearOrder α] [LinearOrder β] {f : α → β}
    (hf : StrictMono f) (xs : List α) : listArgmax (xs.map f) = listArgmax xs := by
  cases xs with
  | nil => rfl
  | cons x t =>
    simp only [List.map_cons, listArgmax]
    exact argmaxAux_map hf t x 0 1

theorem softmaxRow_map_div (T : ℝ) (row : List ℝ) :
    softmaxRow (row.map (fun x => x / T))
      = row.map (fun x =>
          Real.exp (x / T - rowMax (row.map (fun y => y / T)))
            / ((row.map (fun y =>
                Real.exp (y / T - rowMax (row.map (fun z => z / T))))).sum)) := by
  simp only [softmaxRow, List.map_map]
  rfl

theorem strictMono_softmax_term (T m S : ℝ) (hT : 0 < T) (hS : 0 < S) :
    StrictMono (fun x : ℝ => Real.exp (x / T - m) / S) := by
  intro a b hab
  have h1 : a / T < b / T := (div_lt_div_iff_of_pos_right hT).mpr hab
  have h2 : Real.exp (a / T - m) < Real.exp (b / T - m) :=
    Real.exp_lt_exp.mpr (by linarith)
  exact (div_lt_div_iff_of_pos_right hS).mpr h2

/-! ## Claim theorems: C1, C4 -/

/-- C1 (amended): calling `transform` before any `fit` does not fail on any
logits input: the constructor default `temperature = 1.0` makes it silently
return the plain softmax of the raw logits, i.e. exactly the uncalibrated
probability result.  No "unfit calibrator" check exists in `transform`. -/
theorem C1_transform_before_fit_silent (logits : List (List ℝ)) :
    TemperatureScaling.transform TemperatureScaling.initTemperature logits
      = softmax logits := by
  unfold TemperatureScaling.transform TemperatureScaling.initTemperature
  congr 1
  simp

/-- Counterexample to C1 as stated: on the concrete input `[[0.0]]` the unfit
calibrator's `transform` raises nothing and silently returns the probability
matrix `[[1.0]]` (the uncalibrated softmax output). -/
theorem C1_transform_unfit_returns_result :
    TemperatureScaling.transform TemperatureScaling.initTemperature [[(0 : ℝ)]] = [[1]] := by
  simp [TemperatureScaling.transform, TemperatureScaling.initTemperature, softmax, softmaxRow,
    rowMax, Real.exp_zero]

/-- C4: for any temperature the optimizer of `fit` can return (the
`L-BFGS-B` bounds confine it to `[0.1, 10]`) and any logits matrix with
non-empty rows, the per-row arg-max of `transform(logits)` equals the per-row
arg-max of the raw logits: temperature scaling never flips a classification
decision. -/
theorem C4_transform_preserves_argmax (T : ℝ) (logits : List (List ℝ))
    (hT1 : 1 / 10 ≤ T) (hT2 : T ≤ 10) (hrows : ∀ row ∈ logits, row ≠ []) :
    (TemperatureScaling.transform T logits).map listArgmax = logits.map listArgmax := by
  have hT : 0 < T := lt_of_lt_of_le (by norm_num) hT1
  unfold TemperatureScaling.transform softmax
  rw [List.map_map, List.map_map]
  apply List.map_congr_left
  intro row hrow
  show listArgmax (softmaxRow (row.map (fun x => x / T))) = listArgmax row
  rw [softmaxRow_map_div]
  have hS : 0 < ((row.map (fun y =>
      Real.exp (y / T - rowMax (row.map (fun z => z / T))))).sum) := by
    apply List.sum_pos
    · intro x hx
      simp only [List.mem_map] at hx
      obtain ⟨y, _, rfl⟩ := hx
      exact Real.exp_pos _
    · simpa using hrows row hrow
  exact listArgmax_map
    (strictMono_softmax_term T (rowMax (row.map (fun z => z / T))) _ hT hS) row

/-- Witness for C4 at the concrete fit result `T = 1` and logits `[[0, 1]]`. -/
theorem C4_transform_preserves_argmax_witness :
    (TemperatureScaling.transform 1 [[(0 : ℝ), 1]]).map listArgmax
      = [[(0 : ℝ), 1]].map listArgmax :=
  C4_transform_preserves_argmax 1 [[0, 1]] (by norm_num) (by norm_num) (by simp)

/-! ## RetrievalEvaluator.ndcg_at_k (evaluate_retrieval.py, lines 70-94) -/

/-- `np.log2`. -/
noncomputable def log2 (x : ℝ) : ℝ := Real.logb 2 x

/-- The DCG loop of `ndcg_at_k` (lines 83-86): binary relevance at positions
counted from `i` upward, mirroring `enumerate(retrieved[:k], 1)` with its
running counter. -/
noncomputable def dcgAux (relevant : Finset String) : List String → ℕ → ℝ
  | [], _ => 0
  | d :: ds, i =>
    (if d ∈ relevant then (1 : ℝ) else 0) / log2 ((i : ℝ) + 1) + dcgAux relevant ds (i + 1)

/-- Partial sums of the ideal weights `1 / log2(i + 1)` over positions
`a, a + 1, ..., a + h - 1` (the generalization of the IDCG sum used in the
bounding arguments). -/
noncomputable def segSum (a h : ℕ) : ℝ :=
  ((List.range' a h).map (fun (i : ℕ) => 1 / log2 ((i : ℝ) + 1))).sum

/-- `idcg = sum(1.0 / np.log2(i + 1) for i in range(1, min(len(relevant), k) + 1))`
(line 89). -/
noncomputable def idcgOf (relevant : Finset String) (k : ℕ) : ℝ :=
  segSum 1 (min relevant.card k)

/-- `RetrievalEvaluator.ndcg_at_k` (lines 70-94): `DCG / IDCG`, and `0.0` when
`IDCG == 0`. -/
noncomputable def RetrievalEvaluator.ndcgAtK (retrieved : List String)
    (relevant : Finset String) (k : ℕ) : ℝ :=
  let dcg := dcgAux relevant (retrieved.take k) 1
  let idcg := idcgOf relevant k
  if idcg = 0 then 0 else dcg / idcg

/-! ## Helper lemmas for C8 -/

theorem log2_pos_of_one_le {i : ℕ} (hi : 1 ≤ i) : 0 < log2 ((i : ℝ) + 1) := by
  apply Real.logb_pos (by norm_num)
  have : (1 : ℝ) ≤ (i : ℝ) := by exact_mod_cast hi
  linarith

theorem weight_nonneg {i : ℕ} (hi : 1 ≤ i) : 0 ≤ 1 / log2 ((i : ℝ) + 1) := by
  have := log2_pos_of_one_le hi
  positivity

theorem weight_antitone {i : ℕ} (hi : 1 ≤ i) :
    1 / log2 ((i : ℝ) + 1 + 1) ≤ 1 / log2 ((i : ℝ) + 1) := by
  apply one_div_le_one_div_of_le (log2_pos_of_one_le hi)
  unfold log2
  rw [Real.logb_le_logb (by norm_num) ?h1 ?h2]
  · linarith
  case h1 =>
    have : (1 : ℝ) ≤ (i : ℝ) := by exact_mod_cast hi
    linarith
  case h2 =>
    have : (1 : ℝ) ≤ (i : ℝ) := by exact_mod_cast hi
    linarith

theorem segSum_zero (a : ℕ) : segSum a 0 = 0 := rfl

theorem segSum_succ (a h : ℕ) :
    segSum a (h + 1) = 1 / log2 ((a : ℝ) + 1) + segSum (a + 1) h := by
  unfold segSum
  rw [List.range'_succ]
  simp

theorem segSum_nonneg {a : ℕ} (ha : 1 ≤ a) (h : ℕ) : 0 ≤ segSum a h := by
  induction h generalizing a with
  | zero => simp [segSum_zero]
  | succ h ih =>
    rw [segSum_succ]
    have h1 : 0 ≤ 1 / log2 ((a : ℝ) + 1) := le_of_lt (by
      have := log2_pos_of_one_le ha
      positivity)
    have h2 : 0 ≤ segSum (a + 1) h := ih (by omega)
    linarith

theorem segSum_shift {a : ℕ} (ha : 1 ≤ a) (h : ℕ) : segSum (a + 1) h ≤ segSum a h := by
  induction h generalizing a with
  | zero => simp [segSum_zero]
  | succ h ih =>
    rw [segSum_succ, segSum_succ]
    have h1 : 1 / log2 (((a + 1 : ℕ) : ℝ) + 1) ≤ 1 / log2 ((a : ℝ) + 1) := by
      have := weight_antitone ha
      push_cast
      push_cast at this
      linarith
    have h2 : segSum (a + 1 + 1) h ≤ segSum (a + 1) h := ih (by omega)
    linarith

theorem segSum_mono_len {a : ℕ} (ha : 1 ≤ a) {h h' : ℕ} (hh : h ≤ h') :
    segSum a h ≤ segSum a h' := by
  induction h' generalizing a h with
  | zero =>
    have : h = 0 := by omega
    simp [this]
  | succ h' ih =>
    cases h with
    | zero =>
      rw [segSum_zero]
      exact segSum_nonneg ha _
    | succ h =>
      rw [segSum_succ, segSum_succ]
      have := @ih (a + 1) (by omega) h (by omega)
      linarith

theorem dcgAux_le_segSum (relevant : Finset String) :
    ∀ (l : List String) (a : ℕ), 1 ≤ a →
      dcgAux relevant l a ≤ segSum a (l.countP (fun d => decide (d ∈ relevant))) := by
  intro l
  induction l with
  | nil => intro a _; simp [dcgAux, segSum_zero]
  | cons d ds ih =>
    intro a ha
    by_cases hd : d ∈ relevant
    · have hcnt : (d :: ds).countP (fun d => decide (d ∈ relevant))
          = ds.countP (fun d => decide (d ∈ relevant)) + 1 := by
        rw [List.countP_cons]
        simp [hd]
      rw [hcnt, segSum_succ]
      simp only [dcgAux, if_pos hd]
      have := ih (a + 1) (by omega)
      linarith
    · have hcnt : (d :: ds).countP (fun d => decide (d ∈ relevant))
          = ds.countP (fun d => decide (d ∈ relevant)) := by
        rw [List.countP_cons]
        simp [hd]
      rw [hcnt]
      simp only [dcgAux, if_neg hd, zero_div, zero_add]
      calc dcgAux relevant ds (a + 1)
          ≤ segSum (a + 1) (ds.countP (fun d => decide (d ∈ relevant))) := ih (a + 1) (by omega)
        _ ≤ segSum a (ds.countP (fun d => decide (d ∈ relevant))) := segSum_shift ha _

theorem dcgAux_nonneg (relevant : Finset String) :
    ∀ (l : List String) (a : ℕ), 1 ≤ a → 0 ≤ dcgAux relevant l a := by
  intro l
  induction l with
  | nil => intro a _; simp [dcgAux]
  | cons d ds ih =>
    intro a ha
    simp only [dcgAux]
    have h1 : 0 ≤ (if d ∈ relevant then (1 : ℝ) else 0) / log2 ((a : ℝ) + 1) := by
      have hp := log2_pos_of_one_le ha
      split_ifs <;> positivity
    have h2 := ih (a + 1) (by omega)
    linarith

theorem dcgAux_all_relevant (relevant : Finset String) :
    ∀ (l : List String) (a : ℕ), (∀ d ∈ l, d ∈ relevant) →
      dcgAux relevant l a = segSum a l.length := by
  intro l
  induction l with
  | nil => intro a _; simp [dcgAux, segSum_zero]
  | cons d ds ih =>
    intro a hall
    simp only [dcgAux, List.length_cons, if_pos (hall d (by simp))]
    rw [segSum_succ, ih (a + 1) (fun x hx => hall x (by simp [hx]))]

theorem dcgAux_none_relevant (relevant : Finset String) :
    ∀ (l : List String) (a : ℕ), (∀ d ∈ l, d ∉ relevant) →
      dcgAux relevant l a = 0 := by
  intro l
  induction l with
  | nil => intro a _; rfl
  | cons d ds ih =>
    intro a hall
    simp only [dcgAux, if_neg (hall d (by simp)), zero_div, zero_add]
    exact ih (a + 1) (fun x hx => hall x (by simp [hx]))

theorem dcgAux_append (relevant : Finset String) :
    ∀ (l₁ l₂ : List String) (a : ℕ),
      dcgAux relevant (l₁ ++ l₂) a = dcgAux relevant l₁ a + dcgAux relevant l₂ (a + l₁.length) := by
  intro l₁
  induction l₁ with
  | nil => intro l₂ a; simp [dcgAux]
  | cons d ds ih =>
    intro l₂ a
    simp only [List.cons_append, dcgAux, List.length_cons, List.append_eq]
    rw [ih l₂ (a + 1)]
    have harg : a + 1 + ds.length = a + (ds.length + 1) := by omega
    rw [harg]
    ring

theorem segSum_pos {a : ℕ} (ha : 1 ≤ a) {h : ℕ} (hh : 1 ≤ h) : 0 < segSum a h := by
  obtain ⟨h', rfl⟩ : ∃ h', h = h' + 1 := ⟨h - 1, by omega⟩
  rw [segSum_succ]
  have h1 : 0 < 1 / log2 ((a : ℝ) + 1) := by
    have := log2_pos_of_one_le ha
    positivity
  have h2 : 0 ≤ segSum (a + 1) h' := segSum_nonneg (by omega) _
  linarith

theorem countP_relevant_le (relevant : Finset String) (l : List String) (hnd : l.Nodup) :
    l.countP (fun d => decide (d ∈ relevant)) ≤ relevant.card := by
  rw [List.countP_eq_length_filter]
  have hnd2 : (l.filter (fun d => decide (d ∈ relevant))).Nodup := hnd.filter _
  rw [← List.toFinset_card_of_nodup hnd2]
  apply Finset.card_le_card
  intro x hx
  rw [List.mem_toFinset] at hx
  simpa using List.of_mem_filter hx

/-! ## Claim theorem: C8 -/

/-- C8 (amended): `ndcg_at_k` returns `DCG / IDCG` with the claim's binary
relevance formulas, and `0.0` when `IDCG == 0`; for a top-K list without
duplicates the value lies in `[0, 1]`; and it equals `1.0` whenever the top-K
order places all relevant documents first (its first `min(|relevant|, K)`
entries relevant, the remaining entries irrelevant) with a nonempty relevant
set and `K ≥ 1`.  As stated the `[0, 1]` bound needs the duplicate-free
hypothesis: a repeated relevant document is credited once per occurrence in
the DCG but only once in the IDCG (see the counterexample). -/
theorem C8_ndcg_formula_and_bounds (retrieved : List String) (relevant : Finset String)
    (k : ℕ) :
    (RetrievalEvaluator.ndcgAtK retrieved relevant k
      = if idcgOf relevant k = 0 then 0
        else dcgAux relevant (retrieved.take k) 1 / idcgOf relevant k)
    ∧ ((retrieved.take k).Nodup →
        0 ≤ RetrievalEvaluator.ndcgAtK retrieved relevant k
          ∧ RetrievalEvaluator.ndcgAtK retrieved relevant k ≤ 1)
    ∧ (∀ l₁ l₂ : List String, retrieved.take k = l₁ ++ l₂
        → l₁.length = min relevant.card k
        → (∀ d ∈ l₁, d ∈ relevant) → (∀ d ∈ l₂, d ∉ relevant)
        → relevant.Nonempty → 1 ≤ k
        → RetrievalEvaluator.ndcgAtK retrieved relevant k = 1) := by
  refine ⟨rfl, ?_, ?_⟩
  · intro hnd
    unfold RetrievalEvaluator.ndcgAtK
    by_cases hz : idcgOf relevant k = 0
    · simp [hz]
    · rw [if_neg hz]
      have hidcg_pos : 0 < idcgOf relevant k :=
        lt_of_le_of_ne (segSum_nonneg (by omega) _) (Ne.symm hz)
      constructor
      · exact div_nonneg (dcgAux_nonneg relevant _ 1 (by omega)) (le_of_lt hidcg_pos)
      · rw [div_le_one hidcg_pos]
        calc dcgAux relevant (retrieved.take k) 1
            ≤ segSum 1 ((retrieved.take k).countP (fun d => decide (d ∈ relevant))) :=
              dcgAux_le_segSum relevant _ 1 (by omega)
          _ ≤ segSum 1 (min relevant.card k) := by
              apply segSum_mono_len (by omega)
              have h1 := countP_relevant_le relevant (retrieved.take k) hnd
              have h2 : (retrieved.take k).countP (fun d => decide (d ∈ relevant)) ≤ k :=
                le_trans (List.countP_le_length _)
                  (by rw [List.length_take]; exact min_le_left _ _)
              omega
          _ = idcgOf relevant k := rfl
  · intro l₁ l₂ heq hlen hall hnone hne hk
    unfold RetrievalEvaluator.ndcgAtK
    have hm : 1 ≤ min relevant.card k := by
      have := Finset.card_pos.mpr hne
      omega
    have hidcg_pos : 0 < idcgOf relevant k := segSum_pos (by omega) hm
    have hdcg : dcgAux relevant (retrieved.take k) 1 = idcgOf relevant k := by
      rw [heq, dcgAux_append, dcgAux_all_relevant relevant l₁ 1 hall,
        dcgAux_none_relevant relevant l₂ _ hnone, hlen]
      unfold idcgOf
      ring
    rw [if_neg (ne_of_gt hidcg_pos), hdcg]
    exact div_self (ne_of_gt hidcg_pos)

/-- Counterexample to C8 as stated: on the duplicated retrieved list
`["d", "d"]` with relevant set `{"d"}` and `K = 2`, `ndcg_at_k` exceeds 1:
the single relevant document is credited at both retrieved positions in the
DCG but only once in the IDCG. -/
theorem C8_duplicates_exceed_one :
    1 < RetrievalEvaluator.ndcgAtK ["d", "d"] {"d"} 2 := by
  have hlog3 : 0 < Real.logb 2 3 := Real.logb_pos (by norm_num) (by norm_num)
  have hidcg : idcgOf {"d"} 2 = 1 := by
    unfold idcgOf segSum
    norm_num [log2, Real.logb_self_eq_one]
  have hself : Real.logb 2 2 = 1 := Real.logb_self_eq_one (by norm_num)
  have hdcg : dcgAux {"d"} ["d", "d"] 1 = 1 + 1 / Real.logb 2 3 := by
    have h12 : ((1 : ℕ) : ℝ) + 1 = 2 := by norm_num
    have h23 : ((2 : ℕ) : ℝ) + 1 = 3 := by norm_num
    simp [dcgAux, log2, h12, h23, hself]
    norm_num [hself]
  have hpos : 0 < 1 / Real.logb 2 3 := by positivity
  unfold RetrievalEvaluator.ndcgAtK
  rw [show (["d", "d"].take 2) = ["d", "d"] from rfl, hidcg, hdcg]
  rw [if_neg one_ne_zero, div_one]
  linarith

/-- Witness for C8 at concrete inputs: a duplicate-free list for the bounds
and an ideally ordered list for the equality. -/
theorem C8_ndcg_formula_and_bounds_witness :
    (0 ≤ RetrievalEvaluator.ndcgAtK ["a", "b"] {"a"} 2
      ∧ RetrievalEvaluator.ndcgAtK ["a", "b"] {"a"} 2 ≤ 1)
    ∧ RetrievalEvaluator.ndcgAtK ["a", "b"] {"a"} 2 = 1 :=
  ⟨(C8_ndcg_formula_and_bounds ["a", "b"] {"a"} 2).2.1 (by decide),
   (C8_ndcg_formula_and_bounds ["a", "b"] {"a"} 2).2.2 ["a"] ["b"] rfl (by decide)
     (by decide) (by decide) ⟨"a", by decide⟩ (by decide)⟩

/-! ## HybridRetriever (retrieve_evidence.py, lines 26-203)

The two index adapters delegate their scoring to external libraries (sklearn
cosine similarity over the TF-IDF matrix, FAISS L2 search over the embedding
matrix); the embedding therefore takes the per-row relevance scores
(`scores`) and L2 distances (`dists`) over the `n` corpus rows as inputs and
models everything the Python code does with them.  `idx_to_id` is the loaded
ID map (`none` = key absent, i.e. an index/metadata desync). -/

/-- One record of `doc_metadata.json`; only `doc_id` takes part in the
verified behaviour, `payload` stands for the remaining metadata fields. -/
structure Doc where
  doc_id : String
  payload : String

/-- `np.argsort(scores)[::-1][:top_k]` over corpus rows `0 .. n-1`
(line 105).  NumPy's argsort leaves tied scores in unspecified order; all
theorems below assume pairwise-distinct scores, under which every sorting
algorithm produces this list. -/
def topIndices (scores : ℕ → ℚ) (n k : ℕ) : List ℕ :=
  ((List.range n).insertionSort (fun a b => scores b ≤ scores a)).take k

/-- The FAISS result rows: `top_k` corpus rows by ascending L2 distance
(line 124), under the same distinct-distance convention as `topIndices`. -/
def faissTopIndices (dists : ℕ → ℚ) (n k : ℕ) : List ℕ :=
  ((List.range n).insertionSort (fun a b => dists a ≤ dists b)).take k

/-- The id-resolution loop shared by `bm25_search` (lines 107-111) and
`faiss_search` (lines 126-131): `self.idx_to_id[idx]` raises `KeyError`
(embedded as `.error`) on a row index absent from the ID map; otherwise each
row contributes `(doc_id, score)` in order. -/
def resolveLoop (f : ℕ → ℚ) (idxToId : ℕ → Option String) :
    List ℕ → Except String (List (String × ℚ))
  | [] => Except.ok []
  | idx :: rest =>
    match idxToId idx with
    | none => Except.error "KeyError: idx_to_id"
    | some docId =>
      match resolveLoop f idxToId rest with
      | Except.error e => Except.error e
      | Except.ok tail => Except.ok ((docId, f idx) :: tail)

/-- The value `resolveLoop` returns when every index resolves. -/
def resolveAll (f : ℕ → ℚ) (idxToId : ℕ → Option String) (l : List ℕ) :
    List (String × ℚ) :=
  l.map (fun idx => ((idxToId idx).getD "", f idx))

/-- `HybridRetriever.bm25_search` (lines 93-113) downstream of the external
vectorizer/cosine-similarity call: rank all corpus rows by descending score,
truncate to `top_k`, resolve row indices through the ID map. -/
def HybridRetriever.bm25Search (scores : ℕ → ℚ) (n : ℕ) (idxToId : ℕ → Option String)
    (topK : ℕ) : Except String (List (String × ℚ)) :=
  resolveLoop scores idxToId (topIndices scores n topK)

/-- `HybridRetriever.faiss_search` (lines 115-133) downstream of the external
encoder and FAISS lookup: the `top_k` rows by ascending L2 distance, each
resolved through the ID map and scored `1 / (1 + dist)` (line 130). -/
def HybridRetriever.faissSearch (dists : ℕ → ℚ) (n : ℕ) (idxToId : ℕ → Option String)
    (topK : ℕ) : Except String (List (String × ℚ)) :=
  resolveLoop (fun idx => 1 / (1 + dists idx)) idxToId (faissTopIndices dists n topK)

/-- The fused score of one doc_id (lines 188-191):
`alpha * bm25_norm.get(doc_id, 0.0) + (1 - alpha) * faiss_norm.get(doc_id, 0.0)`. -/
def fusedScore (alpha : ℚ) (bm25Norm faissNorm : List (String × ℚ)) (docId : String) : ℚ :=
  alpha * dictGetD bm25Norm docId 0 + (1 - alpha) * dictGetD faissNorm docId 0

/-- The key set `all_doc_ids = set(bm25_norm.keys()) | set(faiss_norm.keys())`
(line 186) as a deduplicated list.  CPython iterates a set of strings in an
unspecified, per-process order (string hashing is salted), so the ranking
below takes the actual iteration order as an explicit parameter `perm`,
constrained in the theorems to be a permutation of this list. -/
def unionIds (bm25Norm faissNorm : List (String × ℚ)) : List String :=
  ((bm25Norm.map Prod.fst) ++ (faissNorm.map Prod.fst)).dedup

/-- `sorted(fused_scores.items(), key=lambda x: x[1], reverse=True)[:top_k]`
(line 194) computed from the iteration order `perm` of `all_doc_ids`. -/
def rankFused (alpha : ℚ) (bm25Norm faissNorm : List (String × ℚ)) (perm : List String)
    (topK : ℕ) : List (String × ℚ) :=
  ((perm.insertionSort (fun a b =>
      fusedScore alpha bm25Norm faissNorm b ≤ fusedScore alpha bm25Norm faissNorm a)).take
    topK).map (fun docId => (docId, fusedScore alpha bm25Norm faissNorm docId))

/-- The metadata-attachment loop of `hybrid_search` (lines 157-161 and
197-201): `next((d for d in self.documents if d['doc_id'] == doc_id), None)`
keeps a candidate only when a metadata record matches; an unmatched candidate
is dropped silently (the loop prints no warning) and the loop continues. -/
def attachMeta (documents : List Doc) (results : List (String × ℚ)) :
    List (String × ℚ × Doc) :=
  results.filterMap (fun r =>
    (documents.find? (fun d => d.doc_id == r.1)).map (fun d => (r.1, r.2, d)))

/-- `HybridRetriever.hybrid_search` (lines 135-203) in the `use_faiss` branch:
over-fetch `top_k * 2` candidates from each index, min-max normalize each
side, fuse with weight `alpha`, rank by descending fused score in the set
iteration order `perm`, truncate to `top_k`, attach metadata. -/
def HybridRetriever.hybridSearch (documents : List Doc) (scores dists : ℕ → ℚ) (n : ℕ)
    (idxToId : ℕ → Option String) (topK : ℕ) (alpha : ℚ) (perm : List String) :
    Except String (List (String × ℚ × Doc)) :=
  match HybridRetriever.bm25Search scores n idxToId (topK * 2) with
  | Except.error e => Except.error e
  | Except.ok bm25Results =>
    match HybridRetriever.faissSearch dists n idxToId (topK * 2) with
    | Except.error e => Except.error e
    | Except.ok faissResults =>
      let bm25Norm := normalizeScores bm25Results
      let faissNorm := normalizeScores faissResults
      Except.ok (attachMeta documents (rankFused alpha bm25Norm faissNorm perm topK))

/-! ## Helper lemmas for C6 -/

theorem resolveLoop_error (f : ℕ → ℚ) (idxToId : ℕ → Option String) :
    ∀ (l : List ℕ), (∃ idx ∈ l, idxToId idx = none) →
      ∃ e, resolveLoop f idxToId l = Except.error e := by
  intro l
  induction l with
  | nil => rintro ⟨idx, hidx, _⟩; simp at hidx
  | cons a rest ih =>
    rintro ⟨idx, hidx, hnone⟩
    rcases List.mem_cons.mp hidx with rfl | hmem
    · exact ⟨"KeyError: idx_to_id", by simp [resolveLoop, hnone]⟩
    · cases ha : idxToId a with
      | none => exact ⟨"KeyError: idx_to_id", by simp [resolveLoop, ha]⟩
      | some docId =>
        obtain ⟨e, he⟩ := ih ⟨idx, hmem, hnone⟩
        exact ⟨e, by simp [resolveLoop, ha, he]⟩

/-! ## Claim theorem: C6 -/

/-- C6 (amended): the two desync cases behave differently.  A `doc_id` that
does not resolve against the document metadata is dropped (silently — no
warning is printed) and retrieval continues with the remaining candidates in
order; but a row index returned by an index adapter that is absent from the
ID map makes `self.idx_to_id[idx]` raise `KeyError`, so that retrieval call
fails instead of dropping the candidate. -/
theorem C6_desync_drop_and_raise (scores : ℕ → ℚ) (n : ℕ) (idxToId : ℕ → Option String)
    (topK : ℕ) (documents : List Doc) (results : List (String × ℚ)) :
    ((∃ idx ∈ topIndices scores n topK, idxToId idx = none) →
      ∃ e, HybridRetriever.bm25Search scores n idxToId topK = Except.error e)
    ∧ (attachMeta documents results).map (fun t => (t.1, t.2.1))
        = results.filter (fun r => (documents.find? (fun d => d.doc_id == r.1)).isSome) := by
  constructor
  · intro hdesync
    exact resolveLoop_error scores idxToId _ hdesync
  · induction results with
    | nil => rfl
    | cons r rest ih =>
      simp only [attachMeta, List.filterMap_cons, List.filter_cons] at *
      cases hfind : documents.find? (fun d => d.doc_id == r.1) with
      | none => simpa [hfind] using ih
      | some d => simpa [hfind] using ih

/-- Witness for C6: a one-row corpus whose only index is missing from the ID
map makes `bm25_search` raise, and a candidate without a metadata record is
dropped from the attachment result. -/
theorem C6_desync_drop_and_raise_witness :
    (∃ e, HybridRetriever.bm25Search (fun _ => 1) 1 (fun _ => none) 1 = Except.error e)
    ∧ (attachMeta [] [("a", (1 : ℚ))]).map (fun t => (t.1, t.2.1))
        = [("a", (1 : ℚ))].filter
            (fun r => ((([] : List Doc).find? (fun d => d.doc_id == r.1)).isSome)) :=
  ⟨(C6_desync_drop_and_raise (fun _ => 1) 1 (fun _ => none) 1 [] []).1
     ⟨0, by simp [topIndices, List.insertionSort, List.orderedInsert], rfl⟩,
   (C6_desync_drop_and_raise (fun _ => 1) 1 (fun _ => none) 1 [] [("a", 1)]).2⟩

/-- Counterexample to C6 as stated: with a one-row corpus and an empty ID map
the candidate is not dropped with a warning — `bm25_search` raises `KeyError`
(embedded as `.error`), so the retrieval call fails. -/
theorem C6_id_map_desync_raises :
    HybridRetriever.bm25Search (fun _ => 1) 1 (fun _ => none) 1
      = Except.error "KeyError: idx_to_id" := rfl

/-! ## Helper lemmas for C3 -/

theorem resolveLoop_ok (f : ℕ → ℚ) (idxToId : ℕ → Option String) :
    ∀ (l : List ℕ), (∀ idx ∈ l, (idxToId idx).isSome = true) →
      resolveLoop f idxToId l = Except.ok (resolveAll f idxToId l) := by
  intro l
  induction l with
  | nil => intro _; rfl
  | cons a rest ih =>
    intro hall
    have ha := hall a (by simp)
    cases haa : idxToId a with
    | none => rw [haa] at ha; simp at ha
    | some docId =>
      simp [resolveLoop, haa, ih (fun idx h => hall idx (by simp [h])), resolveAll]

theorem foldl_min_le_init : ∀ (xs : List ℚ) (a : ℚ), xs.foldl min a ≤ a := by
  intro xs
  induction xs with
  | nil => intro a; exact le_refl a
  | cons y ys ih => intro a; exact le_trans (ih (min a y)) (min_le_left a y)

theorem foldl_min_le_mem : ∀ (xs : List ℚ) (a x : ℚ), x ∈ xs → xs.foldl min a ≤ x := by
  intro xs
  induction xs with
  | nil => intro a x hx; simp at hx
  | cons y ys ih =>
    intro a x hx
    rcases List.mem_cons.mp hx with rfl | hmem
    · exact le_trans (foldl_min_le_init ys (min a x)) (min_le_right a x)
    · exact ih (min a y) x hmem

theorem rowMin_le_of_mem {l : List ℚ} {x : ℚ} (hx : x ∈ l) : rowMin l ≤ x := by
  match l, hx with
  | y :: ys, hx =>
    rcases List.mem_cons.mp hx with rfl | hmem
    · simpa [rowMin] using foldl_min_le_init ys x
    · simpa [rowMin] using foldl_min_le_mem ys y x hmem

theorem le_foldl_max_init : ∀ (xs : List ℚ) (a : ℚ), a ≤ xs.foldl max a := by
  intro xs
  induction xs with
  | nil => intro a; exact le_refl a
  | cons y ys ih => intro a; exact le_trans (le_max_left a y) (ih (max a y))

theorem le_foldl_max_mem : ∀ (xs : List ℚ) (a x : ℚ), x ∈ xs → x ≤ xs.foldl max a := by
  intro xs
  induction xs with
  | nil => intro a x hx; simp at hx
  | cons y ys ih =>
    intro a x hx
    rcases List.mem_cons.mp hx with rfl | hmem
    · exact le_trans (le_max_right a x) (le_foldl_max_init ys (max a x))
    · exact ih (max a y) x hmem

theorem le_rowMax_of_mem {l : List ℚ} {x : ℚ} (hx : x ∈ l) : x ≤ rowMax l := by
  match l, hx with
  | y :: ys, hx =>
    rcases List.mem_cons.mp hx with rfl | hmem
    · simpa [rowMax] using le_foldl_max_init ys x
    · simpa [rowMax] using le_foldl_max_mem ys y x hmem

/-- The per-entry value of the min-max scaling of `normalize_scores` over the
candidate list `res` (the `1.0` branch when the score range is empty). -/
def normValOf (res : List (String × ℚ)) (s : ℚ) : ℚ :=
  if rowMax (res.map Prod.snd) = rowMin (res.map Prod.snd) then 1
  else (s - rowMin (res.map Prod.snd)) / (rowMax (res.map Prod.snd) - rowMin (res.map Prod.snd))

theorem normalizeScores_eq_map {res : List (String × ℚ)} (hne : res ≠ []) :
    normalizeScores res = res.map (fun p => (p.1, normValOf res p.2)) := by
  match res, hne with
  | p :: rest, _ =>
    unfold normalizeScores normValOf
    simp only [List.map_cons]
    by_cases h : rowMax (p.2 :: rest.map Prod.snd) = rowMin (p.2 :: rest.map Prod.snd) <;>
      simp [h]

theorem keys_normalizeScores (res : List (String × ℚ)) :
    (normalizeScores res).map Prod.fst = res.map Prod.fst := by
  cases res with
  | nil => rfl
  | cons p rest =>
    rw [normalizeScores_eq_map (by simp)]
    simp [List.map_map, Function.comp]

theorem dictGetD_map_val {h : ℚ → ℚ} :
    ∀ {res : List (String × ℚ)} {key : String} {s : ℚ},
      (res.map Prod.fst).Nodup → (key, s) ∈ res →
      dictGetD (res.map (fun p => (p.1, h p.2))) key 0 = h s := by
  intro res
  induction res with
  | nil => intro key s _ hmem; simp at hmem
  | cons p rest ih =>
    intro key s hnd hmem
    rcases List.mem_cons.mp hmem with heq | hmem'
    · rw [← heq]
      simp [dictGetD, List.find?]
    · have hkey_rest : key ∈ rest.map Prod.fst :=
        List.mem_map.mpr ⟨(key, s), hmem', rfl⟩
      have hne : p.1 ≠ key := by
        intro hpk
        have : p.1 ∈ rest.map Prod.fst := hpk ▸ hkey_rest
        simp only [List.map_cons, List.nodup_cons] at hnd
        exact hnd.1 this
      have hbeq : (p.1 == key) = false := beq_eq_false_iff_ne.mpr hne
      have hstep : dictGetD ((p :: rest).map (fun q => (q.1, h q.2))) key 0
          = dictGetD (rest.map (fun q => (q.1, h q.2))) key 0 := by
        simp [dictGetD, List.find?, hbeq]
      rw [hstep]
      apply ih _ hmem'
      simp only [List.map_cons, List.nodup_cons] at hnd
      exact hnd.2

theorem dictGetD_not_mem {res : List (String × ℚ)} {key : String}
    (h : key ∉ res.map Prod.fst) : dictGetD res key 0 = 0 := by
  unfold dictGetD
  cases hf : res.find? (fun p => p.1 == key) with
  | none => rfl
  | some q =>
    have h1 := List.find?_some hf
    have h2 := List.mem_of_find?_eq_some hf
    exact absurd (List.mem_map.mpr ⟨q, h2, by simpa using h1⟩) h

theorem normValOf_lt {res : List (String × ℚ)} {s1 s2 : ℚ}
    (h1 : s1 ∈ res.map Prod.snd) (h2 : s2 ∈ res.map Prod.snd) (h12 : s1 < s2) :
    normValOf res s1 < normValOf res s2 := by
  have hmin1 := rowMin_le_of_mem h1
  have hmax2 := le_rowMax_of_mem h2
  have hlt : rowMin (res.map Prod.snd) < rowMax (res.map Prod.snd) := by linarith
  unfold normValOf
  rw [if_neg (ne_of_gt hlt), if_neg (ne_of_gt hlt)]
  apply (div_lt_div_iff_of_pos_right (by linarith)).mpr
  linarith

theorem normValOf_pos {res : List (String × ℚ)} {s0 s : ℚ}
    (h0 : s0 ∈ res.map Prod.snd) (h : s ∈ res.map Prod.snd) (h0s : s0 < s) :
    0 < normValOf res s := by
  have hmin0 := rowMin_le_of_mem h0
  have hmax := le_rowMax_of_mem h
  have hlt : rowMin (res.map Prod.snd) < rowMax (res.map Prod.snd) := by linarith
  unfold normValOf
  rw [if_neg (ne_of_gt hlt)]
  exact div_pos (by linarith) (by linarith)

theorem take_sorted_perm_eq {α : Type} [DecidableEq α] (f : α → ℚ) :
    ∀ (u l l' : List α), l'.Perm l → l.Nodup →
      List.Sorted (fun a b => f b ≤ f a) l' →
      u.Pairwise (fun a b => f b < f a) →
      (∀ x ∈ u, x ∈ l) →
      (∀ x ∈ l, x ∈ u ∨ ∀ y ∈ u, f x < f y) →
      l'.take u.length = u := by
  intro u
  induction u with
  | nil => intro l l' _ _ _ _ _ _; simp
  | cons a u' ih =>
    intro l l' hperm hnd hsort hpw hsub hcov
    have hal : a ∈ l := hsub a (by simp)
    have hal' : a ∈ l' := hperm.mem_iff.mpr hal
    cases l' with
    | nil => simp at hal'
    | cons b t =>
      have hb_l : b ∈ l := hperm.mem_iff.mp (by simp)
      have hmax : ∀ x ∈ l, f x ≤ f b := by
        intro x hx
        have hx' : x ∈ b :: t := hperm.mem_iff.mpr hx
        rcases List.mem_cons.mp hx' with rfl | hxt
        · exact le_refl _
        · exact List.rel_of_sorted_cons hsort x hxt
      have hba : b = a := by
        rcases hcov b hb_l with hbu | hblt
        · rcases List.mem_cons.mp hbu with rfl | hbu'
          · rfl
          · exact absurd (List.rel_of_pairwise_cons hpw hbu')
              (not_lt.mpr (hmax a hal))
        · exact absurd (hblt a (by simp)) (not_lt.mpr (hmax a hal))
      subst hba
      simp only [List.length_cons, List.take_succ_cons]
      have hanotu' : b ∉ u' := fun ha' =>
        absurd (List.rel_of_pairwise_cons hpw ha') (lt_irrefl (f b))
      have htperm : t.Perm (l.erase b) :=
        (List.cons_perm_iff_perm_erase.mp hperm).2
      have hsub' : ∀ x ∈ u', x ∈ l.erase b := by
        intro x hx
        have hxa : x ≠ b := fun hxb => hanotu' (hxb ▸ hx)
        exact (List.mem_erase_of_ne hxa).mpr (hsub x (by simp [hx]))
      have hcov' : ∀ x ∈ l.erase b, x ∈ u' ∨ ∀ y ∈ u', f x < f y := by
        intro x hx
        have hxl : x ∈ l := List.erase_subset _ _ hx
        have hxa : x ≠ b := by
          intro hxb
          subst hxb
          exact hnd.not_mem_erase hx
        rcases hcov x hxl with hxu | hxlt
        · rcases List.mem_cons.mp hxu with rfl | hxu'
          · exact absurd rfl hxa
          · exact Or.inl hxu'
        · exact Or.inr (fun y hy => hxlt y (by simp [hy]))
      rw [ih (l.erase b) t htperm (hnd.erase b) hsort.of_cons hpw.of_cons hsub' hcov']

theorem sortIdx_pairwise_strict (r : ℕ → ℕ → Prop) [DecidableRel r] [IsTotal ℕ r]
    [IsTrans ℕ r] (key : ℕ → ℚ) (n : ℕ)
    (hrk : ∀ i ∈ List.range n, ∀ j ∈ List.range n, r i j → key j ≤ key i)
    (hinj : ∀ i ∈ List.range n, ∀ j ∈ List.range n, key i = key j → i = j) :
    ((List.range n).insertionSort r).Pairwise (fun a b => key b < key a) := by
  have hsorted : ((List.range n).insertionSort r).Pairwise r :=
    List.sorted_insertionSort r (List.range n)
  have hperm := List.perm_insertionSort r (List.range n)
  have hnd : ((List.range n).insertionSort r).Nodup :=
    hperm.nodup_iff.mpr (List.nodup_range n)
  refine (hsorted.and hnd).imp_of_mem ?_
  intro a b ha hb hab
  have ha' : a ∈ List.range n := hperm.mem_iff.mp ha
  have hb' : b ∈ List.range n := hperm.mem_iff.mp hb
  have hle : key b ≤ key a := hrk a ha' b hb' hab.1
  exact lt_of_le_of_ne hle (fun h => hab.2 ((hinj b hb' a ha' h).symm))

theorem sortIdx_take_dominates (r : ℕ → ℕ → Prop) [DecidableRel r] (key : ℕ → ℚ)
    (n m : ℕ)
    (hpw : ((List.range n).insertionSort r).Pairwise (fun a b => key b < key a)) :
    ∀ j ∈ List.range n, j ∉ ((List.range n).insertionSort r).take m →
      ∀ i ∈ ((List.range n).insertionSort r).take m, key j < key i := by
  intro j hj hjn i hi
  have hperm := List.perm_insertionSort r (List.range n)
  have hj_sort : j ∈ (List.range n).insertionSort r := hperm.mem_iff.mpr hj
  have hsplit : (List.range n).insertionSort r
      = ((List.range n).insertionSort r).take m
        ++ ((List.range n).insertionSort r).drop m :=
    (List.take_append_drop m _).symm
  rw [hsplit] at hj_sort hpw
  rcases List.mem_append.mp hj_sort with h1 | h2
  · exact absurd h1 hjn
  · exact (List.pairwise_append.mp hpw).2.2 i hi j h2

theorem fusedScore_one (b f : List (String × ℚ)) (x : String) :
    fusedScore 1 b f x = dictGetD b x 0 := by
  unfold fusedScore
  ring

theorem fusedScore_zero (b f : List (String × ℚ)) (x : String) :
    fusedScore 0 b f x = dictGetD f x 0 := by
  unfold fusedScore
  ring

theorem attachMeta_map_fst (documents : List Doc) :
    ∀ (results : List (String × ℚ)),
      (∀ r ∈ results, ∃ d ∈ documents, d.doc_id = r.1) →
      (attachMeta documents results).map (fun t => t.1) = results.map Prod.fst := by
  intro results
  induction results with
  | nil => intro _; rfl
  | cons r rest ih =>
    intro hall
    obtain ⟨d, hd, hdid⟩ := hall r (by simp)
    have hsome : (documents.find? (fun d => d.doc_id == r.1)).isSome = true :=
      List.find?_isSome.mpr ⟨d, hd, by simp [hdid]⟩
    obtain ⟨d0, hd0⟩ := Option.isSome_iff_exists.mp hsome
    have htail := ih (fun q hq => hall q (by simp [hq]))
    simp only [attachMeta] at htail
    simp [attachMeta, List.filterMap_cons, hd0, htail]

theorem dedup_length_of_cover {A B : List String} (hA : A.Nodup) (hBA : ∀ x ∈ B, x ∈ A) :
    (A ++ B).dedup.length = A.length := by
  have h1 : (A ++ B).dedup.toFinset = (A ++ B).toFinset := by
    ext x
    simp [List.mem_toFinset, List.mem_dedup]
  have h3 : B.toFinset ⊆ A.toFinset := fun x hx =>
    List.mem_toFinset.mpr (hBA x (List.mem_toFinset.mp hx))
  have h4 : A.toFinset ∪ B.toFinset = A.toFinset := Finset.union_eq_left.mpr h3
  calc (A ++ B).dedup.length
      = (A ++ B).dedup.toFinset.card :=
        (List.toFinset_card_of_nodup (List.nodup_dedup _)).symm
    _ = A.toFinset.card := by rw [h1, List.toFinset_append, h4]
    _ = A.length := List.toFinset_card_of_nodup hA

/-- Core ranking lemma: with pairwise-distinct keys on the corpus, the `top_k`
prefix of the fused ranking — computed from any iteration order `perm` of the
candidate-id set — is the id image of the `top_k` prefix of the primary
index's candidate list.  `g` is the fused score, assumed to agree with a
strictly key-monotone value on the primary candidates, to vanish on
non-candidates, and to be positive on the winning prefix when the corpus
exceeds the over-fetch window. -/
theorem fused_rank_prefix
    (ids : ℕ → String) (key : ℕ → ℚ) (g : String → ℚ) (n k : ℕ)
    (r : ℕ → ℕ → Prop) [DecidableRel r] [IsTotal ℕ r] [IsTrans ℕ r]
    (B perm : List String)
    (hrk : ∀ i ∈ List.range n, ∀ j ∈ List.range n, r i j → key j ≤ key i)
    (hkinj : ∀ i ∈ List.range n, ∀ j ∈ List.range n, key i = key j → i = j)
    (hidinj : ∀ i ∈ List.range n, ∀ j ∈ List.range n, ids i = ids j → i = j)
    (hk : 1 ≤ k)
    (hB : ∀ x ∈ B, ∃ j ∈ List.range n, x = ids j)
    (hg_lt : ∀ i ∈ ((List.range n).insertionSort r).take (k * 2),
             ∀ j ∈ ((List.range n).insertionSort r).take (k * 2),
               key j < key i → g (ids j) < g (ids i))
    (hg_out : ∀ x, (∀ i ∈ ((List.range n).insertionSort r).take (k * 2), x ≠ ids i) →
      g x = 0)
    (hg_pos : ∀ i ∈ ((List.range n).insertionSort r).take (k * 2),
      ∀ j ∈ ((List.range n).insertionSort r).take (k * 2),
        key j < key i → 0 < g (ids i))
    (hperm : perm.Perm
      (((((List.range n).insertionSort r).take (k * 2)).map ids ++ B).dedup)) :
    (perm.insertionSort (fun a b => g b ≤ g a)).take k
      = ((((List.range n).insertionSort r).take (k * 2)).take k).map ids := by
  classical
  set SI := (List.range n).insertionSort r with hSI
  set A2 := SI.take (k * 2) with hA2
  set uIdx := A2.take k with huIdx
  set u := uIdx.map ids with hu
  set L := (A2.map ids ++ B).dedup with hL
  have hSIperm : SI.Perm (List.range n) := List.perm_insertionSort r _
  have hSIlen : SI.length = n := by rw [hSIperm.length_eq, List.length_range]
  have hSInd : SI.Nodup := hSIperm.nodup_iff.mpr (List.nodup_range n)
  have hSIpw : SI.Pairwise (fun a b => key b < key a) :=
    sortIdx_pairwise_strict r key n hrk hkinj
  have hA2sl : A2.Sublist SI := List.take_sublist _ _
  have hA2pw : A2.Pairwise (fun a b => key b < key a) := List.Pairwise.sublist hA2sl hSIpw
  have hA2nd : A2.Nodup := hA2sl.nodup hSInd
  have hA2range : ∀ i ∈ A2, i ∈ List.range n := fun i hi =>
    hSIperm.mem_iff.mp (hA2sl.subset hi)
  have huIdxsl : uIdx.Sublist A2 := List.take_sublist _ _
  have hAids_nd : (A2.map ids).Nodup :=
    List.Nodup.map_on
      (fun x hx y hy hxy => hidinj x (hA2range x hx) y (hA2range y hy) hxy) hA2nd
  have hLnd : L.Nodup := List.nodup_dedup _
  have hl'perm : (perm.insertionSort (fun a b => g b ≤ g a)).Perm L :=
    (List.perm_insertionSort _ _).trans hperm
  haveI : IsTotal String (fun a b => g b ≤ g a) := ⟨fun a b => le_total (g b) (g a)⟩
  haveI : IsTrans String (fun a b => g b ≤ g a) :=
    ⟨fun a b c h1 h2 => le_trans h2 h1⟩
  have hl'sorted : List.Sorted (fun a b => g b ≤ g a)
      (perm.insertionSort (fun a b => g b ≤ g a)) :=
    List.sorted_insertionSort _ _
  have hu_pw : u.Pairwise (fun a b => g b < g a) := by
    rw [hu, List.pairwise_map]
    refine (List.Pairwise.sublist huIdxsl hA2pw).imp_of_mem ?_
    intro a b ha hb hab
    exact hg_lt a (huIdxsl.subset ha) b (huIdxsl.subset hb) hab
  have hu_sub : ∀ x ∈ u, x ∈ L := by
    intro x hx
    obtain ⟨i, hi, rfl⟩ := List.mem_map.mp hx
    have hmem : ids i ∈ A2.map ids := List.mem_map.mpr ⟨i, huIdxsl.subset hi, rfl⟩
    exact List.mem_dedup.mpr (List.mem_append.mpr (Or.inl hmem))
  have hcov : ∀ x ∈ L, x ∈ u ∨ ∀ y ∈ u, g x < g y := by
    intro x hx
    have hx' := List.mem_append.mp (List.mem_dedup.mp hx)
    by_cases hxA : x ∈ A2.map ids
    · obtain ⟨j, hjA2, rfl⟩ := List.mem_map.mp hxA
      by_cases hj : j ∈ uIdx
      · exact Or.inl (List.mem_map.mpr ⟨j, hj, rfl⟩)
      · refine Or.inr ?_
        intro y hy
        obtain ⟨i, hi, rfl⟩ := List.mem_map.mp hy
        have hsplitA2 : A2 = uIdx ++ A2.drop k := (List.take_append_drop k A2).symm
        have hpwsplit := hA2pw
        rw [hsplitA2] at hpwsplit
        have hjdrop : j ∈ A2.drop k := by
          have hj2 : j ∈ uIdx ++ A2.drop k := by rw [← hsplitA2]; exact hjA2
          rcases List.mem_append.mp hj2 with h1 | h2
          · exact absurd h1 hj
          · exact h2
        have hkey : key j < key i := (List.pairwise_append.mp hpwsplit).2.2 i hi j hjdrop
        exact hg_lt i (huIdxsl.subset hi) j hjA2 hkey
    · have hgx : g x = 0 := hg_out x (fun i hi hxi => hxA (by
        rw [hxi]
        exact List.mem_map.mpr ⟨i, hi, rfl⟩))
      refine Or.inr ?_
      intro y hy
      obtain ⟨i, hi, rfl⟩ := List.mem_map.mp hy
      rw [hgx]
      rcases Nat.lt_or_ge (k * 2) n with hlt | hge
      · have hlenA2 : A2.length = k * 2 := by
          rw [hA2, List.length_take, hSIlen]
          omega
        have hdrop_len : (A2.drop k).length = k := by
          rw [List.length_drop, hlenA2]
          omega
        obtain ⟨j0, rest, hj0eq⟩ : ∃ a l, A2.drop k = a :: l := by
          cases hD : A2.drop k with
          | nil => rw [hD] at hdrop_len; simp at hdrop_len; omega
          | cons a l => exact ⟨a, l, rfl⟩
        have hj0 : j0 ∈ A2.drop k := by rw [hj0eq]; simp
        have hsplitA2 : A2 = uIdx ++ A2.drop k := (List.take_append_drop k A2).symm
        have hpwsplit := hA2pw
        rw [hsplitA2] at hpwsplit
        have hkey : key j0 < key i := (List.pairwise_append.mp hpwsplit).2.2 i hi j0 hj0
        exact hg_pos i (huIdxsl.subset hi) j0 ((List.drop_subset k A2) hj0) hkey
      · exfalso
        have hA2SI : A2 = SI := List.take_of_length_le (by omega)
        rcases hx' with h1 | h2
        · exact hxA h1
        · obtain ⟨j, hjr, rfl⟩ := hB x h2
          exact hxA (List.mem_map.mpr ⟨j, by rw [hA2SI]; exact hSIperm.mem_iff.mpr hjr, rfl⟩)
  have hmain := take_sorted_perm_eq g u L (perm.insertionSort (fun a b => g b ≤ g a))
    hl'perm hLnd hl'sorted hu_pw hu_sub hcov
  have hulen : u.length = min k (min (k * 2) n) := by
    rw [hu, List.length_map, huIdx, List.length_take, hA2, List.length_take, hSIlen]
  rcases le_or_lt k n with hkn | hnk
  · have : u.length = k := by omega
    rw [this] at hmain
    exact hmain
  · have hulen_n : u.length = n := by omega
    have hA2SI : A2 = SI := List.take_of_length_le (by omega)
    have hLlen : L.length = n := by
      rw [hL]
      have hcover : ∀ x ∈ B, x ∈ A2.map ids := by
        intro x hxB
        obtain ⟨j, hjr, rfl⟩ := hB x hxB
        exact List.mem_map.mpr ⟨j, by rw [hA2SI]; exact hSIperm.mem_iff.mpr hjr, rfl⟩
      rw [dedup_length_of_cover hAids_nd hcover, List.length_map, hA2SI, hSIlen]
    have hl'len : (perm.insertionSort (fun a b => g b ≤ g a)).length = n := by
      rw [hl'perm.length_eq, hLlen]
    rw [hulen_n] at hmain
    rw [List.take_of_length_le (by omega), ← List.take_of_length_le (le_of_eq hl'len)]
    exact hmain

theorem dict_norm_resolve_mem (key : ℕ → ℚ) (idxToId : ℕ → Option String) (C : List ℕ)
    (hnd : (C.map (fun i => (idxToId i).getD "")).Nodup) (hne : C ≠ []) :
    ∀ j ∈ C, dictGetD (normalizeScores (resolveAll key idxToId C)) ((idxToId j).getD "") 0
      = normValOf (resolveAll key idxToId C) (key j) := by
  intro j hj
  have hres_ne : resolveAll key idxToId C ≠ [] := by
    simp [resolveAll]
    exact hne
  rw [normalizeScores_eq_map hres_ne]
  apply dictGetD_map_val
  · simpa [resolveAll, List.map_map, Function.comp] using hnd
  · exact List.mem_map.mpr ⟨j, hj, rfl⟩

theorem dict_norm_resolve_not_mem (key : ℕ → ℚ) (idxToId : ℕ → Option String)
    (C : List ℕ) (x : String) (hx : ∀ i ∈ C, x ≠ (idxToId i).getD "") :
    dictGetD (normalizeScores (resolveAll key idxToId C)) x 0 = 0 := by
  apply dictGetD_not_mem
  rw [keys_normalizeScores]
  intro hmem
  simp only [resolveAll, List.map_map, Function.comp, List.mem_map] at hmem
  obtain ⟨i, hi, hix⟩ := hmem
  exact hx i hi hix.symm

theorem snd_mem_resolve (key : ℕ → ℚ) (idxToId : ℕ → Option String) (C : List ℕ)
    {j : ℕ} (hj : j ∈ C) :
    key j ∈ (resolveAll key idxToId C).map Prod.snd :=
  List.mem_map.mpr ⟨((idxToId j).getD "", key j), List.mem_map.mpr ⟨j, hj, rfl⟩, rfl⟩

theorem fused_g_facts (key : ℕ → ℚ) (idxToId : ℕ → Option String) (C : List ℕ)
    (g : String → ℚ)
    (hg : ∀ x, g x = dictGetD (normalizeScores (resolveAll key idxToId C)) x 0)
    (hnd : (C.map (fun i => (idxToId i).getD "")).Nodup) (hne : C ≠ []) :
    (∀ i ∈ C, ∀ j ∈ C, key j < key i →
        g ((idxToId j).getD "") < g ((idxToId i).getD ""))
    ∧ (∀ x, (∀ i ∈ C, x ≠ (idxToId i).getD "") → g x = 0)
    ∧ (∀ i ∈ C, ∀ j ∈ C, key j < key i → 0 < g ((idxToId i).getD "")) := by
  refine ⟨?_, ?_, ?_⟩
  · intro i hi j hj hk
    rw [hg, hg, dict_norm_resolve_mem key idxToId C hnd hne j hj,
      dict_norm_resolve_mem key idxToId C hnd hne i hi]
    exact normValOf_lt (snd_mem_resolve key idxToId C hj)
      (snd_mem_resolve key idxToId C hi) hk
  · intro x hx
    rw [hg]
    exact dict_norm_resolve_not_mem key idxToId C x hx
  · intro i hi j hj hk
    rw [hg, dict_norm_resolve_mem key idxToId C hnd hne i hi]
    exact normValOf_pos (snd_mem_resolve key idxToId C hj)
      (snd_mem_resolve key idxToId C hi) hk

theorem dedup_append_comm_perm (X Y : List String) :
    (X ++ Y).dedup.Perm ((Y ++ X).dedup) := by
  rw [List.perm_ext_iff_of_nodup (List.nodup_dedup _) (List.nodup_dedup _)]
  intro a
  simp only [List.mem_dedup, List.mem_append]
  exact Or.comm

theorem hybrid_side_eq
    (idxToId : ℕ → Option String) (key : ℕ → ℚ) (n k : ℕ)
    (r : ℕ → ℕ → Prop) [DecidableRel r] [IsTotal ℕ r] [IsTrans ℕ r]
    (g : String → ℚ) (B perm : List String)
    (hrk : ∀ i ∈ List.range n, ∀ j ∈ List.range n, r i j → key j ≤ key i)
    (hkinj : ∀ i ∈ List.range n, ∀ j ∈ List.range n, key i = key j → i = j)
    (hidinj : ∀ i ∈ List.range n, ∀ j ∈ List.range n, idxToId i = idxToId j → i = j)
    (hid : ∀ i ∈ List.range n, (idxToId i).isSome = true)
    (hk : 1 ≤ k) (hn : 1 ≤ n)
    (hg : ∀ x, g x = dictGetD (normalizeScores (resolveAll key idxToId
      (((List.range n).insertionSort r).take (k * 2)))) x 0)
    (hB : ∀ x ∈ B, ∃ j ∈ List.range n, x = (idxToId j).getD "")
    (hperm : perm.Perm (((((List.range n).insertionSort r).take (k * 2)).map
      (fun i => (idxToId i).getD "") ++ B).dedup)) :
    (perm.insertionSort (fun a b => g b ≤ g a)).take k
      = (((List.range n).insertionSort r).take k).map (fun i => (idxToId i).getD "") := by
  have hids_inj : ∀ i ∈ List.range n, ∀ j ∈ List.range n,
      (idxToId i).getD "" = (idxToId j).getD "" → i = j := by
    intro i hi j hj hij
    obtain ⟨a, ha⟩ := Option.isSome_iff_exists.mp (hid i hi)
    obtain ⟨b, hb⟩ := Option.isSome_iff_exists.mp (hid j hj)
    apply hidinj i hi j hj
    rw [ha, hb] at hij ⊢
    simp only [Option.getD_some] at hij
    rw [hij]
  have hCsl : (((List.range n).insertionSort r).take (k * 2)).Sublist
      ((List.range n).insertionSort r) := List.take_sublist _ _
  have hCperm := List.perm_insertionSort r (List.range n)
  have hCrange : ∀ i ∈ ((List.range n).insertionSort r).take (k * 2),
      i ∈ List.range n := fun i hi => hCperm.mem_iff.mp (hCsl.subset hi)
  have hCnd : (((List.range n).insertionSort r).take (k * 2)).Nodup :=
    hCsl.nodup (hCperm.nodup_iff.mpr (List.nodup_range n))
  have hkeys_nd : ((((List.range n).insertionSort r).take (k * 2)).map
      (fun i => (idxToId i).getD "")).Nodup :=
    List.Nodup.map_on
      (fun x hx y hy h => hids_inj x (hCrange x hx) y (hCrange y hy) h) hCnd
  have hClen : (((List.range n).insertionSort r).take (k * 2)).length = min (k * 2) n := by
    rw [List.length_take, hCperm.length_eq, List.length_range]
  have hCne : ((List.range n).insertionSort r).take (k * 2) ≠ [] := by
    intro h
    rw [h] at hClen
    simp only [List.length_nil] at hClen
    omega
  obtain ⟨hg_lt, hg_out, hg_pos⟩ :=
    fused_g_facts key idxToId (((List.range n).insertionSort r).take (k * 2)) g
      hg hkeys_nd hCne
  have hmain := fused_rank_prefix (fun i => (idxToId i).getD "") key g n k r B perm
    hrk hkinj hids_inj hk hB hg_lt hg_out hg_pos hperm
  rw [hmain, List.take_take, min_eq_left (by omega : k ≤ k * 2)]

theorem map_fst_pair {β : Type} (g : String → β) (l : List String) :
    (l.map (fun docId => (docId, g docId))).map Prod.fst = l := by
  rw [List.map_map]
  have hcomp : (Prod.fst ∘ fun docId => (docId, g docId)) = fun x => x := rfl
  rw [hcomp]
  exact List.map_id _

theorem insertionSort_take_subset_range (r : ℕ → ℕ → Prop) [DecidableRel r] (n m : ℕ) :
    ∀ i ∈ ((List.range n).insertionSort r).take m, i ∈ List.range n := fun i hi =>
  (List.perm_insertionSort r _).mem_iff.mp ((List.take_sublist _ _).subset hi)

/-- C3: with well-formed fixed indexes — pairwise-distinct BM25 scores,
pairwise-distinct nonnegative L2 distances, a complete injective ID map and
complete document metadata (the id-alignment invariant of the data model) —
the ranked doc_id list returned by `hybrid_search` with `alpha = 1.0` equals
the pure BM25 ranking of the query, and with `alpha = 0.0` (vector index
present) it equals the pure FAISS ranking, whatever iteration order CPython
gives the candidate-id set. -/
theorem C3_pure_fusion_endpoints (documents : List Doc) (scores dists : ℕ → ℚ)
    (n k : ℕ) (idxToId : ℕ → Option String)
    (hn : 1 ≤ n) (hk : 1 ≤ k)
    (hsc : ∀ i ∈ List.range n, ∀ j ∈ List.range n, scores i = scores j → i = j)
    (hds : ∀ i ∈ List.range n, ∀ j ∈ List.range n, dists i = dists j → i = j)
    (hd0 : ∀ i ∈ List.range n, 0 ≤ dists i)
    (hid : ∀ i ∈ List.range n, (idxToId i).isSome = true)
    (hidinj : ∀ i ∈ List.range n, ∀ j ∈ List.range n, idxToId i = idxToId j → i = j)
    (hdocs : ∀ i ∈ List.range n, ∃ d ∈ documents, idxToId i = some d.doc_id) :
    (∀ perm, perm.Perm (unionIds
        (normalizeScores (resolveAll scores idxToId (topIndices scores n (k * 2))))
        (normalizeScores (resolveAll (fun i => 1 / (1 + dists i)) idxToId
          (faissTopIndices dists n (k * 2))))) →
      ∃ out lex,
        HybridRetriever.hybridSearch documents scores dists n idxToId k 1 perm
          = Except.ok out
        ∧ HybridRetriever.bm25Search scores n idxToId k = Except.ok lex
        ∧ out.map (fun t => t.1) = lex.map Prod.fst)
    ∧ (∀ perm, perm.Perm (unionIds
        (normalizeScores (resolveAll scores idxToId (topIndices scores n (k * 2))))
        (normalizeScores (resolveAll (fun i => 1 / (1 + dists i)) idxToId
          (faissTopIndices dists n (k * 2))))) →
      ∃ out vec,
        HybridRetriever.hybridSearch documents scores dists n idxToId k 0 perm
          = Except.ok out
        ∧ HybridRetriever.faissSearch dists n idxToId k = Except.ok vec
        ∧ out.map (fun t => t.1) = vec.map Prod.fst) := by
  classical
  have hsome_b2 : ∀ idx ∈ topIndices scores n (k * 2), (idxToId idx).isSome = true :=
    fun idx hi => hid idx (insertionSort_take_subset_range _ n (k * 2) idx hi)
  have hsome_bk : ∀ idx ∈ topIndices scores n k, (idxToId idx).isSome = true :=
    fun idx hi => hid idx (insertionSort_take_subset_range _ n k idx hi)
  have hsome_f2 : ∀ idx ∈ faissTopIndices dists n (k * 2), (idxToId idx).isSome = true :=
    fun idx hi => hid idx (insertionSort_take_subset_range _ n (k * 2) idx hi)
  have hsome_fk : ∀ idx ∈ faissTopIndices dists n k, (idxToId idx).isSome = true :=
    fun idx hi => hid idx (insertionSort_take_subset_range _ n k idx hi)
  have hbm2 : HybridRetriever.bm25Search scores n idxToId (k * 2)
      = Except.ok (resolveAll scores idxToId (topIndices scores n (k * 2))) :=
    resolveLoop_ok scores idxToId _ hsome_b2
  have hbmk : HybridRetriever.bm25Search scores n idxToId k
      = Except.ok (resolveAll scores idxToId (topIndices scores n k)) :=
    resolveLoop_ok scores idxToId _ hsome_bk
  have hfa2 : HybridRetriever.faissSearch dists n idxToId (k * 2)
      = Except.ok (resolveAll (fun i => 1 / (1 + dists i)) idxToId
          (faissTopIndices dists n (k * 2))) :=
    resolveLoop_ok _ idxToId _ hsome_f2
  have hfak : HybridRetriever.faissSearch dists n idxToId k
      = Except.ok (resolveAll (fun i => 1 / (1 + dists i)) idxToId
          (faissTopIndices dists n k)) :=
    resolveLoop_ok _ idxToId _ hsome_fk
  have hhs : ∀ (alpha : ℚ) (perm : List String),
      HybridRetriever.hybridSearch documents scores dists n idxToId k alpha perm
        = Except.ok (attachMeta documents (rankFused alpha
            (normalizeScores (resolveAll scores idxToId (topIndices scores n (k * 2))))
            (normalizeScores (resolveAll (fun i => 1 / (1 + dists i)) idxToId
              (faissTopIndices dists n (k * 2)))) perm k)) := by
    intro alpha perm
    unfold HybridRetriever.hybridSearch
    rw [hbm2, hfa2]
  have hbmfst : (resolveAll scores idxToId (topIndices scores n (k * 2))).map Prod.fst
      = (topIndices scores n (k * 2)).map (fun i => (idxToId i).getD "") := by
    simp [resolveAll, List.map_map, Function.comp]
  have hfafst : (resolveAll (fun i => 1 / (1 + dists i)) idxToId
        (faissTopIndices dists n (k * 2))).map Prod.fst
      = (faissTopIndices dists n (k * 2)).map (fun i => (idxToId i).getD "") := by
    simp [resolveAll, List.map_map, Function.comp]
  have huni : unionIds
      (normalizeScores (resolveAll scores idxToId (topIndices scores n (k * 2))))
      (normalizeScores (resolveAll (fun i => 1 / (1 + dists i)) idxToId
        (faissTopIndices dists n (k * 2))))
      = ((resolveAll scores idxToId (topIndices scores n (k * 2))).map Prod.fst
          ++ (resolveAll (fun i => 1 / (1 + dists i)) idxToId
              (faissTopIndices dists n (k * 2))).map Prod.fst).dedup := by
    unfold unionIds
    rw [keys_normalizeScores, keys_normalizeScores]
  have hunion_ids : ∀ x ∈ unionIds
      (normalizeScores (resolveAll scores idxToId (topIndices scores n (k * 2))))
      (normalizeScores (resolveAll (fun i => 1 / (1 + dists i)) idxToId
        (faissTopIndices dists n (k * 2)))),
      ∃ j ∈ List.range n, x = (idxToId j).getD "" := by
    intro x hx
    rw [huni] at hx
    rcases List.mem_append.mp (List.mem_dedup.mp hx) with h | h
    · rw [hbmfst] at h
      obtain ⟨j, hj, hjx⟩ := List.mem_map.mp h
      exact ⟨j, insertionSort_take_subset_range _ n (k * 2) j hj, hjx.symm⟩
    · rw [hfafst] at h
      obtain ⟨j, hj, hjx⟩ := List.mem_map.mp h
      exact ⟨j, insertionSort_take_subset_range _ n (k * 2) j hj, hjx.symm⟩
  have hdoc_of_id : ∀ j ∈ List.range n, ∃ d ∈ documents, d.doc_id = (idxToId j).getD "" := by
    intro j hj
    obtain ⟨d, hd, heq⟩ := hdocs j hj
    exact ⟨d, hd, by rw [heq, Option.getD_some]⟩
  have hcover : ∀ (alpha : ℚ) (perm : List String),
      perm.Perm (unionIds
        (normalizeScores (resolveAll scores idxToId (topIndices scores n (k * 2))))
        (normalizeScores (resolveAll (fun i => 1 / (1 + dists i)) idxToId
          (faissTopIndices dists n (k * 2))))) →
      ∀ rr ∈ rankFused alpha
        (normalizeScores (resolveAll scores idxToId (topIndices scores n (k * 2))))
        (normalizeScores (resolveAll (fun i => 1 / (1 + dists i)) idxToId
          (faissTopIndices dists n (k * 2)))) perm k,
        ∃ d ∈ documents, d.doc_id = rr.1 := by
    intro alpha perm hp rr hrr
    simp only [rankFused, List.mem_map] at hrr
    obtain ⟨id0, hid0, rfl⟩ := hrr
    have h1 : id0 ∈ perm := (List.perm_insertionSort _ _).mem_iff.mp
      ((List.take_sublist _ _).subset hid0)
    obtain ⟨j, hj, rfl⟩ := hunion_ids id0 (hp.mem_iff.mp h1)
    exact hdoc_of_id j hj
  constructor
  · intro perm hperm
    refine ⟨_, _, hhs 1 perm, hbmk, ?_⟩
    rw [attachMeta_map_fst documents _ (hcover 1 perm hperm)]
    have hrank_fst : (rankFused 1
        (normalizeScores (resolveAll scores idxToId (topIndices scores n (k * 2))))
        (normalizeScores (resolveAll (fun i => 1 / (1 + dists i)) idxToId
          (faissTopIndices dists n (k * 2)))) perm k).map Prod.fst
        = (perm.insertionSort (fun a b =>
            fusedScore 1
              (normalizeScores (resolveAll scores idxToId (topIndices scores n (k * 2))))
              (normalizeScores (resolveAll (fun i => 1 / (1 + dists i)) idxToId
                (faissTopIndices dists n (k * 2)))) b
              ≤ fusedScore 1
              (normalizeScores (resolveAll scores idxToId (topIndices scores n (k * 2))))
              (normalizeScores (resolveAll (fun i => 1 / (1 + dists i)) idxToId
                (faissTopIndices dists n (k * 2)))) a)).take k := by
      unfold rankFused
      exact map_fst_pair _ _
    rw [hrank_fst]
    have hB1 : ∀ x ∈ (resolveAll (fun i => 1 / (1 + dists i)) idxToId
        (faissTopIndices dists n (k * 2))).map Prod.fst,
        ∃ j ∈ List.range n, x = (idxToId j).getD "" := by
      intro x hx
      rw [hfafst] at hx
      obtain ⟨j, hj, hjx⟩ := List.mem_map.mp hx
      exact ⟨j, insertionSort_take_subset_range _ n (k * 2) j hj, hjx.symm⟩
    have hperm2 : perm.Perm
        (((((List.range n).insertionSort (fun a b => scores b ≤ scores a)).take (k * 2)).map
          (fun i => (idxToId i).getD "")
          ++ (resolveAll (fun i => 1 / (1 + dists i)) idxToId
              (faissTopIndices dists n (k * 2))).map Prod.fst).dedup) := by
      have h0 := hperm
      rw [huni, hbmfst] at h0
      exact h0
    haveI : IsTotal ℕ (fun a b => scores b ≤ scores a) :=
      ⟨fun a b => le_total (scores b) (scores a)⟩
    haveI : IsTrans ℕ (fun a b => scores b ≤ scores a) :=
      ⟨fun a b c h1 h2 => le_trans h2 h1⟩
    have hside := hybrid_side_eq idxToId scores n k (fun a b => scores b ≤ scores a)
      (fusedScore 1
        (normalizeScores (resolveAll scores idxToId (topIndices scores n (k * 2))))
        (normalizeScores (resolveAll (fun i => 1 / (1 + dists i)) idxToId
          (faissTopIndices dists n (k * 2)))))
      ((resolveAll (fun i => 1 / (1 + dists i)) idxToId
        (faissTopIndices dists n (k * 2))).map Prod.fst) perm
      (fun i _ j _ h => h) hsc hidinj hid hk hn
      (fun x => fusedScore_one _ _ x) hB1 hperm2
    rw [hside]
    have hpair : (Prod.fst ∘ fun idx => ((idxToId idx).getD "", scores idx))
        = fun i => (idxToId i).getD "" := rfl
    simp only [topIndices, resolveAll, List.map_map, hpair]
  · intro perm hperm
    refine ⟨_, _, hhs 0 perm, hfak, ?_⟩
    rw [attachMeta_map_fst documents _ (hcover 0 perm hperm)]
    have hrank_fst : (rankFused 0
        (normalizeScores (resolveAll scores idxToId (topIndices scores n (k * 2))))
        (normalizeScores (resolveAll (fun i => 1 / (1 + dists i)) idxToId
          (faissTopIndices dists n (k * 2)))) perm k).map Prod.fst
        = (perm.insertionSort (fun a b =>
            fusedScore 0
              (normalizeScores (resolveAll scores idxToId (topIndices scores n (k * 2))))
              (normalizeScores (resolveAll (fun i => 1 / (1 + dists i)) idxToId
                (faissTopIndices dists n (k * 2)))) b
              ≤ fusedScore 0
              (normalizeScores (resolveAll scores idxToId (topIndices scores n (k * 2))))
              (normalizeScores (resolveAll (fun i => 1 / (1 + dists i)) idxToId
                (faissTopIndices dists n (k * 2)))) a)).take k := by
      unfold rankFused
      exact map_fst_pair _ _
    rw [hrank_fst]
    have hB0 : ∀ x ∈ (resolveAll scores idxToId (topIndices scores n (k * 2))).map Prod.fst,
        ∃ j ∈ List.range n, x = (idxToId j).getD "" := by
      intro x hx
      rw [hbmfst] at hx
      obtain ⟨j, hj, hjx⟩ := List.mem_map.mp hx
      exact ⟨j, insertionSort_take_subset_range _ n (k * 2) j hj, hjx.symm⟩
    have hperm2 : perm.Perm
        (((((List.range n).insertionSort (fun a b => dists a ≤ dists b)).take (k * 2)).map
          (fun i => (idxToId i).getD "")
          ++ (resolveAll scores idxToId (topIndices scores n (k * 2))).map Prod.fst).dedup) := by
      have h0 := hperm
      rw [huni] at h0
      have h1 := h0.trans (dedup_append_comm_perm _ _)
      rw [hfafst] at h1
      exact h1
    haveI : IsTotal ℕ (fun a b => dists a ≤ dists b) :=
      ⟨fun a b => le_total (dists a) (dists b)⟩
    haveI : IsTrans ℕ (fun a b => dists a ≤ dists b) :=
      ⟨fun a b c h1 h2 => le_trans h1 h2⟩
    have hrkf : ∀ i ∈ List.range n, ∀ j ∈ List.range n,
        (fun a b => dists a ≤ dists b) i j → 1 / (1 + dists j) ≤ 1 / (1 + dists i) := by
      intro i hi j hj h
      have h1 : (0 : ℚ) < 1 + dists i := by
        have := hd0 i hi
        linarith
      exact one_div_le_one_div_of_le h1 (by linarith)
    have hkinjf : ∀ i ∈ List.range n, ∀ j ∈ List.range n,
        1 / (1 + dists i) = 1 / (1 + dists j) → i = j := by
      intro i hi j hj h
      have h1 : (0 : ℚ) < 1 + dists i := by
        have := hd0 i hi
        linarith
      have h2 : (0 : ℚ) < 1 + dists j := by
        have := hd0 j hj
        linarith
      apply hds i hi j hj
      rw [div_eq_div_iff (ne_of_gt h1) (ne_of_gt h2)] at h
      linarith
    have hside := hybrid_side_eq idxToId (fun i => 1 / (1 + dists i)) n k
      (fun a b => dists a ≤ dists b)
      (fusedScore 0
        (normalizeScores (resolveAll scores idxToId (topIndices scores n (k * 2))))
        (normalizeScores (resolveAll (fun i => 1 / (1 + dists i)) idxToId
          (faissTopIndices dists n (k * 2)))))
      ((resolveAll scores idxToId (topIndices scores n (k * 2))).map Prod.fst) perm
      hrkf hkinjf hidinj hid hk hn
      (fun x => fusedScore_zero _ _ x) hB0 hperm2
    rw [hside]
    have hpair : (Prod.fst ∘ fun idx => ((idxToId idx).getD "", 1 / (1 + dists idx)))
        = fun i => (idxToId i).getD "" := rfl
    simp only [faissTopIndices, resolveAll, List.map_map, hpair]

/-- Witness for C3 on a one-document corpus with complete ID map and metadata. -/
theorem C3_pure_fusion_endpoints_witness :
    (∃ out lex,
      HybridRetriever.hybridSearch [⟨"a", "t"⟩] (fun _ => 1) (fun _ => 0) 1
        (fun _ => some "a") 1 1 ["a"] = Except.ok out
      ∧ HybridRetriever.bm25Search (fun _ => 1) 1 (fun _ => some "a") 1 = Except.ok lex
      ∧ out.map (fun t => t.1) = lex.map Prod.fst)
    ∧ (∃ out vec,
      HybridRetriever.hybridSearch [⟨"a", "t"⟩] (fun _ => 1) (fun _ => 0) 1
        (fun _ => some "a") 1 0 ["a"] = Except.ok out
      ∧ HybridRetriever.faissSearch (fun _ => 0) 1 (fun _ => some "a") 1 = Except.ok vec
      ∧ out.map (fun t => t.1) = vec.map Prod.fst) := by
  have h := C3_pure_fusion_endpoints [⟨"a", "t"⟩] (fun _ => 1) (fun _ => 0) 1 1
    (fun _ => some "a") (le_refl 1) (le_refl 1)
    (by intro i hi j hj _; simp [List.mem_range, Nat.lt_one_iff] at hi hj; rw [hi, hj])
    (by intro i hi j hj _; simp [List.mem_range, Nat.lt_one_iff] at hi hj; rw [hi, hj])
    (fun i _ => le_refl 0)
    (fun i _ => rfl)
    (by intro i hi j hj _; simp [List.mem_range, Nat.lt_one_iff] at hi hj; rw [hi, hj])
    (fun i _ => ⟨⟨"a", "t"⟩, by simp, rfl⟩)
  have hu : unionIds
      (normalizeScores (resolveAll (fun _ => 1) (fun _ => some "a")
        (topIndices (fun _ => 1) 1 (1 * 2))))
      (normalizeScores (resolveAll (fun i => 1 / (1 + (fun _ => (0 : ℚ)) i)) (fun _ => some "a")
        (faissTopIndices (fun _ => 0) 1 (1 * 2)))) = ["a"] := by
    unfold unionIds
    rw [keys_normalizeScores, keys_normalizeScores]
    rfl
  have hp : (["a"] : List String).Perm (unionIds
      (normalizeScores (resolveAll (fun _ => 1) (fun _ => some "a")
        (topIndices (fun _ => 1) 1 (1 * 2))))
      (normalizeScores (resolveAll (fun i => 1 / (1 + (fun _ => (0 : ℚ)) i)) (fun _ => some "a")
        (faissTopIndices (fun _ => 0) 1 (1 * 2))))) := by
    rw [hu]
  exact ⟨h.1 ["a"] hp, h.2 ["a"] hp⟩
